import Mathlib

/-!
Verification development for the noise-aware coupling-graph builder and
patch selector of `scoring.py` (smart_pass_manager).

Modelling conventions:
* Python floats are modelled as exact rationals (`ℚ`).  All the numeric
  code under scrutiny is plain field arithmetic (`+ * / max`), so the
  rational model is the idealised real-number semantics of the source;
  "finite" is intrinsic to `ℚ`.
* The backend-properties objects (`props.gates`, `props.qubits`,
  `backend.configuration()`) are modelled structurally: a gate record
  carries a qubit list, optional `error` / `gate_length` attributes and a
  named parameter list; a qubit record is a named parameter list.
* Python dictionaries written by iteration (`cx_err[(c,t)] = v`) are
  modelled by "last write wins" lookups over the originating list.
* `networkx.DiGraph` is modelled as a node count `n` (the nodes are
  `0 .. n-1`, as created by `add_nodes_from(range(n))`) plus a list of
  weighted directed edges in which `add_edge` overwrites an existing
  entry for the same ordered pair.
* `random.Random(seed)` is a deterministic pseudo-random generator that
  is a pure function of the integer seed.  Its two uses
  (`rng.sample(edges, m)` and `rng.sample(range(n), k)`) are modelled by
  a deterministic linear-congruential sampler threaded through the call,
  standing in for the Mersenne-Twister stream; theorems that must hold
  for every possible pseudo-random draw are stated over arbitrary draws
  satisfying exactly the guarantees of `random.sample` (a duplicate-free
  selection from the population).
* In-place mutation (`hyper.auto_scale(...)` mutating the dataclass) is
  modelled by explicit state passing: `auto_scale` returns the updated
  parameter record and `build_weighted_graph` returns it alongside the
  graph.
-/

/-! ## Weight hyper-parameters (`WeightHyperParams`, scoring.py lines 24-50) -/

/-- The `WeightHyperParams` dataclass: optional coefficients, auto-scaled when
`none`, plus the two always-present fields. -/
structure WeightHyperParams where
  alpha : Option ℚ := none
  beta : Option ℚ := none
  gamma : Option ℚ := none
  delta : Option ℚ := none
  direction_penalty : ℚ := 1/2
  distance_weight : ℚ := 0
deriving DecidableEq, Repr

/-- The statistics dictionary as read by `auto_scale` via `stats.get`:
only the three keys it consults, each possibly absent. -/
structure StatsMap where
  mean_2q_err : Option ℚ := none
  mean_cx_err : Option ℚ := none
  mean_1q_err : Option ℚ := none
deriving DecidableEq, Repr

/-- Method `WeightHyperParams.auto_scale` (scoring.py lines 34-50), functionally:
fills each `None` field, leaves set fields untouched, and returns the
updated record (the Python method mutates `self` in place). -/
def WeightHyperParams.auto_scale (h : WeightHyperParams) (stats : StatsMap) (k : Nat) :
    WeightHyperParams :=
  let mean_2q := stats.mean_2q_err.getD (stats.mean_cx_err.getD (1/1000))
  let alpha := match h.alpha with
    | some a => a
    | none => mean_2q / max (stats.mean_1q_err.getD (1/1000000)) (1/1000000)
  let beta := match h.beta with
    | some b => b
    | none => alpha / 2
  let gamma := match h.gamma with
    | some c => c
    | none => mean_2q / (max k 1 : ℚ)
  let delta := match h.delta with
    | some d => d
    | none => 1/100
  { h with alpha := some alpha, beta := some beta, gamma := some gamma, delta := some delta }

/-! ## Backend properties model and statistics collector
(`_collect_backend_stats`, scoring.py lines 56-98) -/

/-- One entry of `props.gates`: the qubit list, the optional direct
`error` / `gate_length` attributes, and the `parameters` name/value list. -/
structure GateRec where
  qubits : List Nat
  error : Option ℚ := none
  gate_length : Option ℚ := none
  params : List (String × ℚ) := []
deriving DecidableEq, Repr

/-- Backend properties: `gates` plus `qubits` (per-qubit name/value
parameter lists). -/
structure Props where
  gates : List GateRec := []
  qubits : List (List (String × ℚ)) := []
deriving DecidableEq, Repr

/-- Backend configuration: `n_qubits` and the `coupling_map`. -/
structure BackendConf where
  n_qubits : Nat
  coupling_map : List (Nat × Nat)
deriving DecidableEq, Repr

/-- First parameter value with the given name (the `for p in parameters:
... break` / `if err is None` scan, first match wins). -/
def lookupParam (name : String) (ps : List (String × ℚ)) : Option ℚ :=
  (ps.find? (fun pr => pr.1 = name)).map (·.2)

/-- Resolved gate error: the `error` attribute, else the first
`gate_error` parameter. -/
def gateErr (gt : GateRec) : Option ℚ :=
  match gt.error with
  | some e => some e
  | none => lookupParam "gate_error" gt.params

/-- Resolved gate duration: the `gate_length` attribute, else the first
`gate_length` parameter. -/
def gateLen (gt : GateRec) : Option ℚ :=
  match gt.gate_length with
  | some d => some d
  | none => lookupParam "gate_length" gt.params

/-- Mean of a list with a default for the empty case (`mean = lambda
lst, default: sum(lst)/len(lst) if lst else default`). -/
def meanD (l : List ℚ) (d : ℚ) : ℚ :=
  if l = [] then d else l.sum / (l.length : ℚ)

/-- Python `max(lst)` with a default for the empty case. -/
def maxD (l : List ℚ) (d : ℚ) : ℚ :=
  match l with
  | [] => d
  | x :: xs => xs.foldl max x

/-- Resolved two-qubit gate errors in `props.gates` order. -/
def twoqErrs (props : Props) : List ℚ :=
  props.gates.filterMap (fun gt => if gt.qubits.length = 2 then gateErr gt else none)

/-- Resolved two-qubit gate durations in `props.gates` order. -/
def twoqDurs (props : Props) : List ℚ :=
  props.gates.filterMap (fun gt => if gt.qubits.length = 2 then gateLen gt else none)

/-- All single-qubit error values across `props.qubits` (either
recognised field name; every match is appended). -/
def oneqVals (props : Props) : List ℚ :=
  props.qubits.flatMap (fun ql =>
    ql.filterMap (fun pr =>
      if pr.1 = "gate_error" ∨ pr.1 = "single_qubit_error" then some pr.2 else none))

/-- All readout-error values across `props.qubits`. -/
def roVals (props : Props) : List ℚ :=
  props.qubits.flatMap (fun ql =>
    ql.filterMap (fun pr =>
      if pr.1 = "readout_error" ∨ pr.1 = "prob_meas1_prep0" then some pr.2 else none))

/-- All T1 values across `props.qubits`. -/
def t1Vals (props : Props) : List ℚ :=
  props.qubits.flatMap (fun ql =>
    ql.filterMap (fun pr => if pr.1 = "T1" then some pr.2 else none))

/-- The six scalar statistics returned by `_collect_backend_stats`. -/
structure BackendStats where
  mean_cx_err : ℚ
  max_cx_err : ℚ
  mean_1q_err : ℚ
  mean_ro_err : ℚ
  mean_cx_dur : ℚ
  mean_T1 : ℚ
deriving DecidableEq, Repr

/-- Function `_collect_backend_stats(backend, props)` (scoring.py lines 56-98). -/
def collect_backend_stats (props : Props) : BackendStats :=
  { mean_cx_err := meanD (twoqErrs props) (1/1000)
    max_cx_err := maxD (twoqErrs props) (1/1000)
    mean_1q_err := meanD (oneqVals props) (1/10000)
    mean_ro_err := meanD (roVals props) (1/50)
    mean_cx_dur := meanD (twoqDurs props) (1/1000000)
    mean_T1 := meanD (t1Vals props) (3/50000) }

/-- The stats dictionary view handed to `auto_scale`: the dict produced
by `_collect_backend_stats` has keys `mean_cx_err` and `mean_1q_err` but
no `mean_2q_err`. -/
def BackendStats.toMap (s : BackendStats) : StatsMap :=
  { mean_2q_err := none, mean_cx_err := some s.mean_cx_err, mean_1q_err := some s.mean_1q_err }

/-! ## Weighted graph model and builder
(`build_weighted_graph`, scoring.py lines 104-167) -/

/-- Directed weighted graph: nodes `0 .. n-1` plus a list of weighted
directed edges (one entry per ordered pair after `add_edge` overwrites). -/
structure WGraph where
  n : Nat
  edges : List (Nat × Nat × ℚ)
deriving DecidableEq, Repr

/-- Weight of the directed edge `(u,v)` when present (`G[u][v]["weight"]`). -/
def findW (g : WGraph) (u v : Nat) : Option ℚ :=
  (g.edges.find? (fun e => e.1 = u ∧ e.2.1 = v)).map (·.2.2)

/-- Predicate `G.has_edge(u, v)`. -/
def hasEdgeB (g : WGraph) (u v : Nat) : Bool :=
  (findW g u v).isSome

/-- Adjacency ignoring direction (`nbr ∈ successors ∪ predecessors`). -/
def adjB (g : WGraph) (u v : Nat) : Bool :=
  hasEdgeB g u v || hasEdgeB g v u

/-- Operation `G.add_edge(u, v, weight := w)`: overwrites any existing entry for
the ordered pair. -/
def addEdge (g : WGraph) (u v : Nat) (w : ℚ) : WGraph :=
  { g with edges := g.edges.filter (fun e => ¬(e.1 = u ∧ e.2.1 = v)) ++ [(u, v, w)] }

/-- Last-write-wins lookup of the build loop's `cx_err[(c, t)]` dict. -/
def cxErrOf (props : Props) (c t : Nat) : Option ℚ :=
  (props.gates.filterMap (fun gt => if gt.qubits = [c, t] then gateErr gt else none)).getLast?

/-- Last-write-wins lookup of the build loop's `cx_dur[(c, t)]` dict. -/
def cxDurOf (props : Props) (c t : Nat) : Option ℚ :=
  (props.gates.filterMap (fun gt => if gt.qubits = [c, t] then gateLen gt else none)).getLast?

/-- Last-write-wins lookup of `oneq_err[q]` (scoring.py lines 120-130);
absent index means no entry. -/
def oneqErrOf (props : Props) (q : Nat) : Option ℚ :=
  (((props.qubits.get? q).getD []).filterMap (fun pr =>
    if pr.1 = "gate_error" ∨ pr.1 = "single_qubit_error" then some pr.2 else none)).getLast?

/-- Last-write-wins lookup of `ro_err[q]`. -/
def roErrOf (props : Props) (q : Nat) : Option ℚ :=
  (((props.qubits.get? q).getD []).filterMap (fun pr =>
    if pr.1 = "readout_error" ∨ pr.1 = "prob_meas1_prep0" then some pr.2 else none)).getLast?

/-- Composite weight of the native direction `(c,t)` as computed in the
edge loop (scoring.py lines 152-158), given the already-scaled params
`h` and the collected stats. -/
def fwdWeight (props : Props) (stats : BackendStats) (h : WeightHyperParams)
    (c t : Nat) : ℚ :=
  let base := (cxErrOf props c t).getD (3/2 * stats.max_cx_err)
  let len := (cxDurOf props c t).getD stats.mean_cx_dur
  let sq := (oneqErrOf props c).getD 0 + (oneqErrOf props t).getD 0
  let ro := (roErrOf props c).getD 0 + (roErrOf props t).getD 0
  let decoh := (h.delta.getD 0) * len / max stats.mean_T1 (1/1000000)
  base + (h.alpha.getD 0) * sq + (h.beta.getD 0) * ro + (h.gamma.getD 0) + decoh

/-- One iteration of the edge loop: add the forward edge; if the reverse
ordered pair has no native calibration, also add the reverse edge with
the direction penalty. -/
def buildStep (props : Props) (stats : BackendStats) (h : WeightHyperParams)
    (g : WGraph) (ct : Nat × Nat) : WGraph :=
  let w := fwdWeight props stats h ct.1 ct.2
  let g1 := addEdge g ct.1 ct.2 w
  if (cxErrOf props ct.2 ct.1).isSome then g1
  else addEdge g1 ct.2 ct.1 (w + h.direction_penalty)

/-- Function `build_weighted_graph` (scoring.py lines 104-167).  Returns the graph
together with the auto-scaled hyper-parameters: the Python function
mutates the caller's `hyper` object in place, which the functional model
renders as the second component.  (The per-node `t1` dict of lines
122-130 is also populated by the source but never read afterwards, so it
has no observable effect and is omitted.  `default_err` reads
`stats.get("max_2q_err", stats["max_cx_err"])` and the collected dict
never contains `max_2q_err`, so it is `1.5 * max_cx_err`.) -/
def build_weighted_graph (be : BackendConf) (props : Props) (k : Nat)
    (hyper : WeightHyperParams) : WGraph × WeightHyperParams :=
  let stats := collect_backend_stats props
  let h := hyper.auto_scale stats.toMap k
  let g0 : WGraph := ⟨be.n_qubits, []⟩
  (be.coupling_map.foldl (buildStep props stats h) g0, h)

/-! ## Patch selection (`greedy_pick`, scoring.py lines 173-216) -/

/-- Python `sorted(...)` on a duplicate-free collection of node indices. -/
def sortNodes (l : List Nat) : List Nat :=
  List.insertionSort (· ≤ ·) l

/-- Errors raised by `greedy_pick` (both are `ValueError` in the source;
the spec names them `SizeConstraintError` / `EmptyGraphError`). -/
inductive PickErr where
  | sizeConstraint
  | emptyGraph
deriving DecidableEq, Repr

/-- Score `total(patch)`: the sum of `weight` over all directed edges of
`G.subgraph(patch)`, i.e. over every stored directed edge whose two
endpoints are both in the patch. -/
def total (g : WGraph) (p : List Nat) : ℚ :=
  ((g.edges.filter (fun e => p.contains e.1 && p.contains e.2.1)).map (·.2.2)).sum

/-- All neighbours of `q` in either direction, with multiplicity
(`set(G.successors(q)) | set(G.predecessors(q))`; duplicates are
harmless because the frontier is consumed by a minimum). -/
def nbrs (g : WGraph) (q : Nat) : List Nat :=
  g.edges.filterMap (fun e => if e.1 = q then some e.2.1 else none) ++
    g.edges.filterMap (fun e => if e.2.1 = q then some e.1 else none)

/-- Weight of the connecting edge in whichever direction exists
(`G[q][nbr]["weight"] if G.has_edge(q, nbr) else G[nbr][q]["weight"]`). -/
def edgeW (g : WGraph) (q v : Nat) : ℚ :=
  (findW g q v).getD ((findW g v q).getD 0)

/-- The frontier of a patch: `(weight, node)` pairs for every neighbour
of a patch member that is outside the patch. -/
def growFrontier (g : WGraph) (p : List Nat) : List (ℚ × Nat) :=
  p.flatMap (fun q =>
    (nbrs g q).filterMap (fun v => if v ∈ p then none else some (edgeW g q v, v)))

/-- Python `min` over `(weight, node)` tuples: Python tuple order, i.e.
lexicographic. -/
def lexMin (l : List (ℚ × Nat)) : Option (ℚ × Nat) :=
  match l with
  | [] => none
  | x :: xs => some (xs.foldl (fun a b =>
      if b.1 < a.1 ∨ (b.1 = a.1 ∧ b.2 < a.2) then b else a) x)

/-- The `while len(patch) < k` growth loop; each iteration adds exactly
one node, so fuel `k` suffices. -/
def growAux (g : WGraph) (k : Nat) : Nat → List Nat → List Nat
  | 0, p => p
  | fuel + 1, p =>
    if p.length < k then
      match lexMin (growFrontier g p) with
      | none => p
      | some wv => growAux g k fuel (wv.2 :: p)
    else p

/-- Function `grow(edge)` (scoring.py lines 192-204): `patch = set(edge)`, then
grow by cheapest frontier node until size `k` or the frontier empties. -/
def grow (g : WGraph) (k : Nat) (e : Nat × Nat) : List Nat :=
  growAux g k k (if e.1 = e.2 then [e.1] else [e.2, e.1])

/-- One step of the best-candidate scan over sampled start edges
(scoring.py lines 206-212): completed candidates compete by strictly
smaller total weight. -/
def pickStep (g : WGraph) (k : Nat) (best : Option (List Nat × ℚ)) (e : Nat × Nat) :
    Option (List Nat × ℚ) :=
  let p := grow g k e
  if p.length = k then
    let w := total g p
    match best with
    | none => some (p, w)
    | some bw => if w < bw.2 then some (p, w) else some bw
  else best

/-- The multi-start scan: best completed candidate, if any. -/
def pickBest (g : WGraph) (k : Nat) (starts : List (Nat × Nat)) :
    Option (List Nat × ℚ) :=
  starts.foldl (pickStep g k) none

/-- Function `greedy_pick` with the pseudo-random draws abstracted out: `starts`
is the value of `rng.sample(edges, min(num_starts, len(edges)))` and
`fb` the value of `rng.sample(range(G.number_of_nodes()), k)` drawn in
the fallback branch. -/
def greedy_pick (g : WGraph) (k : Nat) (starts : List (Nat × Nat)) (fb : List Nat) :
    Except PickErr (List Nat) :=
  if g.n < k then .error .sizeConstraint
  else if g.edges = [] then .error .emptyGraph
  else
    match pickBest g k starts with
    | some bw => .ok (sortNodes bw.1)
    | none => .ok (sortNodes fb)

/-! ## A deterministic stand-in for `random.Random(seed)` -/

/-- One step of a linear-congruential generator, standing in for the
Mersenne-Twister step of `random.Random`: a pure function of the state. -/
def lcgStep (s : Nat) : Nat :=
  (s * 1103515245 + 12345) % 4294967296

/-- Sampling without replacement driven by the generator state; returns
the drawn elements together with the advanced state. -/
def sampleAux {α : Type} : Nat → Nat → List α → List α → List α × Nat
  | 0, s, _, acc => (acc.reverse, s)
  | m + 1, s, pool, acc =>
    match pool with
    | [] => (acc.reverse, s)
    | _ :: _ =>
      let s1 := lcgStep s
      let i := s1 % pool.length
      match pool.get? i with
      | none => (acc.reverse, s1)
      | some x => sampleAux m s1 (pool.eraseIdx i) (x :: acc)

/-- Sampling `rng.sample(pool, m)` for the modelled generator. -/
def pySample {α : Type} (s : Nat) (pool : List α) (m : Nat) : List α × Nat :=
  sampleAux m s pool []

/-- Call `greedy_pick(G, k, num_starts=ns, seed=seed)` with a supplied integer
seed: the generator is seeded once and consumed first by the start-edge
sample, then (only when every start failed) by the fallback node sample,
exactly as in scoring.py lines 187-216. -/
def greedy_pick_seeded (g : WGraph) (k : Nat) (numStarts : Nat) (seed : Nat) :
    Except PickErr (List Nat) :=
  if g.n < k then .error .sizeConstraint
  else if g.edges = [] then .error .emptyGraph
  else
    let pairs := g.edges.map (fun e => (e.1, e.2.1))
    let drawn := pySample seed pairs (min numStarts pairs.length)
    match pickBest g k drawn.1 with
    | some bw => .ok (sortNodes bw.1)
    | none => .ok (sortNodes (pySample drawn.2 (List.range g.n) k).1)

/-! ## Connectivity check (spec §8: breadth-first reachability over the
patch using all edges, ignoring direction) -/

/-- Frontier of a reachability sweep restricted to the patch `p`. -/
def stepAdds (g : WGraph) (p vis : List Nat) : List Nat :=
  p.filter (fun v => !vis.contains v && vis.any (fun u => adjB g u v))

/-- One reachability sweep. -/
def growVisited (g : WGraph) (p vis : List Nat) : List Nat :=
  vis ++ stepAdds g p vis

/-- Iterated reachability sweeps. -/
def reachClosure (g : WGraph) (p : List Nat) : Nat → List Nat → List Nat
  | 0, vis => vis
  | f + 1, vis => reachClosure g p f (growVisited g p vis)

/-- Connectivity of the induced subgraph on `p`, ignoring direction:
every member is reachable from the first member within the patch. -/
def connectedB (g : WGraph) (p : List Nat) : Bool :=
  match p with
  | [] => true
  | x :: _ => p.all (fun v => (reachClosure g p p.length [x]).contains v)

/-! ## Definitions modelled from the spec (for refinement-style claims)

The following definitions do NOT come from scoring.py; each follows the
spec's words and is used only to compare the code's behaviour against
the specified behaviour. -/

/-- Modelled from the spec (§4.4 step 3, absent from the source): the
boundary of a patch — every node adjacent (in either direction) to a
patch member but outside the patch, in ascending index order. -/
def specBoundary (g : WGraph) (p : List Nat) : List Nat :=
  (List.range g.n).filter (fun v => !p.contains v && p.any (fun q => adjB g q v))

/-- Modelled from the spec (§4.4 step 3, absent from the source): scan
patch members (in patch order) and boundary candidates (ascending) and
return the first swap that keeps the node set connected and strictly
lowers the score. -/
def specFindSwap (g : WGraph) (p : List Nat) : Option (List Nat) :=
  (p.flatMap (fun i =>
      (specBoundary g p).filterMap (fun w =>
        let q := sortNodes (w :: p.erase i)
        if connectedB g q && decide (total g q < total g p) then some q else none))).head?

/-- Modelled from the spec (§4.4 step 4, absent from the source): the
single lowest-weight edge of the graph — ties broken by endpoint order
to make the choice deterministic. -/
def specLowestEdge (g : WGraph) : Option (Nat × Nat × ℚ) :=
  match g.edges with
  | [] => none
  | e :: es => some (es.foldl (fun a b => if b.2.2 < a.2.2 ∨
      (b.2.2 = a.2.2 ∧ (b.1 < a.1 ∨ (b.1 = a.1 ∧ b.2.1 < a.2.1))) then b else a) e)

/-- Modelled from the spec (§4.4 step 4, absent from the source): the
specified fallback — grow from the single lowest-weight edge and accept
whatever patch size results. -/
def specFallback (g : WGraph) (k : Nat) : List Nat :=
  match specLowestEdge g with
  | none => []
  | some e => sortNodes (grow g k (e.1, e.2.1))

/-- Modelled from the spec (§4.4 step 2, absent from the source in this
form): the total score counted once per undirected pair — for each
unordered pair of patch members joined by at least one stored direction,
add the weight of the existing direction (the forward one if both
exist), never both. -/
def specUndirectedTotal (g : WGraph) (p : List Nat) : ℚ :=
  (p.flatMap (fun u =>
    p.filterMap (fun v =>
      if u < v ∧ adjB g u v then some (edgeW g u v) else none))).sum

/-! ## Nonnegativity hypotheses (for the weight-invariant claims) -/

/-- The optional value, when present, is nonnegative. -/
def OptNonneg : Option ℚ → Prop
  | none => True
  | some a => 0 ≤ a

instance : DecidablePred OptNonneg := fun o =>
  match o with
  | none => isTrue trivial
  | some a => inferInstanceAs (Decidable (0 ≤ a))

/-- Every calibration value occurring in the properties is nonnegative. -/
def NonnegProps (props : Props) : Prop :=
  (∀ gt ∈ props.gates,
    OptNonneg gt.error ∧ OptNonneg gt.gate_length ∧ ∀ pr ∈ gt.params, 0 ≤ pr.2) ∧
  (∀ ql ∈ props.qubits, ∀ pr ∈ ql, 0 ≤ pr.2)

/-- Every explicitly supplied weighting coefficient is nonnegative
(auto-derived coefficients always are). -/
def NonnegHyper (h : WeightHyperParams) : Prop :=
  OptNonneg h.alpha ∧ OptNonneg h.beta ∧ OptNonneg h.gamma ∧ OptNonneg h.delta ∧
    0 ≤ h.direction_penalty

/-! ## Concrete instances used by counterexamples and witnesses -/

/-- Five nodes, a single directed edge `0 → 1`: every greedy start gets
stuck at size 2, so `k = 3` exercises the fallback branch. -/
def exampleSingleEdgeGraph : WGraph := ⟨5, [(0, 1, 1)]⟩

/-- A path `0 —5→ 1 —1→ 2`: a greedy start on the heavy edge leaves an
improving connected swap on the table. -/
def examplePathGraph : WGraph := ⟨3, [(0, 1, 5), (1, 2, 1)]⟩

/-- Both directions of one pair stored, each with weight 1. -/
def exampleBothDirGraph : WGraph := ⟨2, [(0, 1, 1), (1, 0, 1)]⟩

/-- A directed triangle: every greedy start completes at `k = 3`. -/
def exampleTriangle : WGraph := ⟨3, [(0, 1, 1), (1, 2, 1), (2, 0, 1)]⟩

/-- Properties with one calibrated two-qubit gate `(0,1)`. -/
def exampleProps : Props := { gates := [{ qubits := [0, 1], error := some (1/100) }] }

/-- A two-qubit backend whose coupling map lists both directions. -/
def exampleBothDirBackend : BackendConf := ⟨2, [(0, 1), (1, 0)]⟩

/-- A two-qubit backend whose coupling map lists one direction. -/
def exampleOneDirBackend : BackendConf := ⟨2, [(0, 1)]⟩

/-- Empty properties: every statistic falls back to its default. -/
def emptyProps : Props := {}

/-- The shape of every patch produced by greedy growth: a start set of
one node (a self-loop start) or two adjacent nodes, extended one node at
a time by a node adjacent (in either direction) to some member. -/
inductive Grown (g : WGraph) : List Nat → Prop
  | single (u : Nat) : Grown g [u]
  | pair (u v : Nat) : u ≠ v → adjB g u v = true → Grown g [v, u]
  | step (p : List Nat) (w q : Nat) : Grown g p → q ∈ p → w ∉ p →
      adjB g q w = true → Grown g (w :: p)

/-! # Theorems -/

/-! ## Helper lemmas -/

/-- Auto-scaling is the identity once every optional field is set; in
particular a second auto-scaling with different stats or k changes
nothing. -/
theorem auto_scale_idem (h : WeightHyperParams) (s s2 : StatsMap) (k k2 : Nat) :
    (h.auto_scale s k).auto_scale s2 k2 = h.auto_scale s k := by
  cases h with
  | mk a b c d dp dw =>
    cases a <;> cases b <;> cases c <;> cases d <;>
      simp [WeightHyperParams.auto_scale]

/-- Field-by-field description of `auto_scale`: each optional field of
the result is the supplied value when one was given, else the documented
formula; the plain fields are untouched. -/
theorem auto_scale_fields (h : WeightHyperParams) (s : StatsMap) (k : Nat) :
    (h.auto_scale s k).alpha =
      some (h.alpha.getD ((s.mean_2q_err.getD (s.mean_cx_err.getD (1/1000))) /
        max (s.mean_1q_err.getD (1/1000000)) (1/1000000))) ∧
    (h.auto_scale s k).beta =
      some (h.beta.getD ((h.alpha.getD ((s.mean_2q_err.getD (s.mean_cx_err.getD (1/1000))) /
        max (s.mean_1q_err.getD (1/1000000)) (1/1000000))) / 2)) ∧
    (h.auto_scale s k).gamma =
      some (h.gamma.getD ((s.mean_2q_err.getD (s.mean_cx_err.getD (1/1000))) / (max k 1 : ℚ))) ∧
    (h.auto_scale s k).delta = some (h.delta.getD (1/100)) ∧
    (h.auto_scale s k).direction_penalty = h.direction_penalty ∧
    (h.auto_scale s k).distance_weight = h.distance_weight := by
  refine ⟨?_, ?_, ?_, ?_, ?_, ?_⟩ <;>
    cases h with
    | mk a b c d dp dw =>
      cases a <;> cases b <;> cases c <;> cases d <;>
        simp [WeightHyperParams.auto_scale]

/-! ## C5: auto-scaling fills exactly the unset coefficients -/

/-- C5 (confirmed): `auto_scale` fills each unset coefficient from the
documented formulas — `alpha = mean_2q_error / max(mean_1q_error, ε)`
with `ε = 1e-6`, `beta = alpha / 2`, `gamma = mean_2q_error / max(k,1)`,
`delta = 0.01` — never overwrites a supplied coefficient (each result
field equals the supplied value whenever one was given, via `getD`),
leaves the non-optional fields untouched, and on the documented scenario
(`mean_2q_error = 0.02`, `mean_1q_error = 0.002`, `k = 4`) yields
`alpha = 10`, `beta = 5`, `gamma = 0.005`. -/
theorem auto_scale_spec (h : WeightHyperParams) (s : StatsMap) (k : Nat) :
    (h.auto_scale s k).alpha =
      some (h.alpha.getD ((s.mean_2q_err.getD (s.mean_cx_err.getD (1/1000))) /
        max (s.mean_1q_err.getD (1/1000000)) (1/1000000))) ∧
    (h.auto_scale s k).beta =
      some (h.beta.getD ((h.alpha.getD ((s.mean_2q_err.getD (s.mean_cx_err.getD (1/1000))) /
        max (s.mean_1q_err.getD (1/1000000)) (1/1000000))) / 2)) ∧
    (h.auto_scale s k).gamma =
      some (h.gamma.getD ((s.mean_2q_err.getD (s.mean_cx_err.getD (1/1000))) / (max k 1 : ℚ))) ∧
    (h.auto_scale s k).delta = some (h.delta.getD (1/100)) ∧
    (h.auto_scale s k).direction_penalty = h.direction_penalty ∧
    (h.auto_scale s k).distance_weight = h.distance_weight ∧
    WeightHyperParams.auto_scale {} ⟨some (1/50), none, some (1/500)⟩ 4 =
      { alpha := some 10, beta := some 5, gamma := some (1/200), delta := some (1/100) } := by
  obtain ⟨h1, h2, h3, h4, h5, h6⟩ := auto_scale_fields h s k
  exact ⟨h1, h2, h3, h4, h5, h6, by norm_num [WeightHyperParams.auto_scale]⟩

/-! ## C6: error conditions of the patch selector -/

/-- C6 (confirmed): `greedy_pick` fails with the size-constraint error
exactly when `k` exceeds the node count, and with the empty-graph error
exactly when `k` is admissible but the graph has no edges (the size
check runs first); in every other case a patch is returned, never an
error. -/
theorem greedy_pick_error_spec (g : WGraph) (k : Nat) (starts : List (Nat × Nat))
    (fb : List Nat) :
    (greedy_pick g k starts fb = .error .sizeConstraint ↔ g.n < k) ∧
    (greedy_pick g k starts fb = .error .emptyGraph ↔ k ≤ g.n ∧ g.edges = []) := by
  unfold greedy_pick
  split_ifs with h1 h2
  · simp [h1, Nat.not_le_of_lt h1]
  · simp [h1, h2, Nat.not_lt.mp h1]
  · cases hp : pickBest g k starts <;> simp [h1, h2]

/-! ## C7: determinism given a fixed seed -/

/-- C7 (confirmed): two calls with identical graph, `k`, `num_starts`
and (supplied integer) seed return the same patch and the same total
weight.  In the model the pseudo-random generator is, as in CPython, a
pure function of the seed, so the selector has no hidden source of
nondeterminism; a `None` seed (CPython then seeds from the OS) is
outside this statement. -/
theorem greedy_pick_deterministic (g g' : WGraph) (k k' ns ns' s s' : Nat)
    (hg : g = g') (hk : k = k') (hn : ns = ns') (hs : s = s') :
    greedy_pick_seeded g k ns s = greedy_pick_seeded g' k' ns' s' ∧
    (greedy_pick_seeded g k ns s).map (total g) =
      (greedy_pick_seeded g' k' ns' s').map (total g') := by
  subst hg; subst hk; subst hn; subst hs; exact ⟨rfl, rfl⟩

/-- Witness for C7 at a concrete triangle graph. -/
theorem greedy_pick_deterministic_witness :
    greedy_pick_seeded exampleTriangle 3 20 7 = greedy_pick_seeded exampleTriangle 3 20 7 ∧
    (greedy_pick_seeded exampleTriangle 3 20 7).map (total exampleTriangle) =
      (greedy_pick_seeded exampleTriangle 3 20 7).map (total exampleTriangle) :=
  greedy_pick_deterministic exampleTriangle exampleTriangle 3 3 20 20 7 7 rfl rfl rfl rfl

/-! ## C10: the builder updates the caller's hyper-parameters for keeps -/

/-- C10 (confirmed): `build_weighted_graph` auto-scales the
caller-supplied `WeightHyperParams` — in Python by in-place assignment
to its `None` fields, modelled here by the returned record — and a
second build reusing that record (with any other backend, properties or
`k`) keeps the first build's coefficients unchanged: no re-scaling
happens. -/
theorem build_weighted_graph_freezes_hyper (be be2 : BackendConf) (props props2 : Props)
    (k k2 : Nat) (h : WeightHyperParams) :
    (build_weighted_graph be props k h).2 =
      h.auto_scale (collect_backend_stats props).toMap k ∧
    (build_weighted_graph be2 props2 k2 (build_weighted_graph be props k h).2).2 =
      (build_weighted_graph be props k h).2 := by
  refine ⟨rfl, ?_⟩
  exact auto_scale_idem h (collect_backend_stats props).toMap
    (collect_backend_stats props2).toMap k k2

/-! ## Counterexample theorems for the corrected claims -/

/-- C1 counterexample: on a five-node graph with one edge and `k = 3`
(valid input: an edge exists and `k ≤ n`), `greedy_pick` with seed 0
returns `[0, 3, 4]`, whose induced subgraph is disconnected — the
claimed connectivity fails because the fallback draws an arbitrary node
sample. -/
theorem greedy_pick_disconnected_counterexample :
    greedy_pick_seeded exampleSingleEdgeGraph 3 20 0 = .ok [0, 3, 4] ∧
    ([0, 3, 4] : List Nat).length = 3 ∧
    connectedB exampleSingleEdgeGraph [0, 3, 4] = false := by
  exact ⟨rfl, rfl, rfl⟩

/-- C2 counterexample: on the path graph with `k = 2`, one start and
seed 1 the code returns the greedy patch `[0, 1]` (score 5) untouched,
although the returned patch still admits an improving swap: the spec's
refinement scan (modelled from the spec) finds the connected patch
`[1, 2]` of strictly lower score 1.  A selector that applied improving
swaps until none existed could not return `[0, 1]`, so `select` performs
no refinement phase and the returned score can exceed what refinement
would achieve. -/
theorem greedy_pick_no_refinement_counterexample :
    greedy_pick_seeded examplePathGraph 2 1 1 = .ok [0, 1] ∧
    specFindSwap examplePathGraph [0, 1] = some [1, 2] ∧
    total examplePathGraph [0, 1] = 5 ∧
    total examplePathGraph [1, 2] = 1 ∧
    connectedB examplePathGraph [1, 2] = true := by
  have hb : specBoundary examplePathGraph [0, 1] = [2] := by decide
  have hlt : total examplePathGraph [1, 2] < total examplePathGraph [0, 1] := by
    norm_num [total, examplePathGraph]
  have hc1 : connectedB examplePathGraph [1, 2] = true := by decide
  have hc2 : connectedB examplePathGraph [0, 2] = false := by decide
  refine ⟨rfl, ?_, ?_, ?_, hc1⟩
  · simp [specFindSwap, hb, sortNodes, List.insertionSort, List.orderedInsert,
      List.erase, hc1, hc2, hlt]
  · norm_num [total, examplePathGraph]
  · norm_num [total, examplePathGraph]

/-- C3 counterexample: with both directions of the pair `{0,1}` stored
(weight 1 each), the code's score of the patch `[0,1]` is 2 — each
stored direction is summed — whereas the claimed once-per-undirected-
pair score is 1. -/
theorem total_double_counts_counterexample :
    total exampleBothDirGraph [0, 1] = 2 ∧
    specUndirectedTotal exampleBothDirGraph [0, 1] = 1 ∧
    (2 : ℚ) ≠ 1 := by
  refine ⟨by norm_num [total, exampleBothDirGraph], ?_, by norm_num⟩
  show ([(1 : ℚ)]).sum = 1
  norm_num

/-- C4 counterexample: on the five-node single-edge graph with `k = 3`
every start sticks at size 2, and the code returns the three-node sample
`[0, 3, 4]` — not the patch `[0, 1]` that growing from the single
lowest-weight edge (the spec's fallback, modelled from the spec) would
produce, and no error is raised although no connected start of size `k`
succeeded. -/
theorem greedy_pick_fallback_counterexample :
    greedy_pick_seeded exampleSingleEdgeGraph 3 20 0 = .ok [0, 3, 4] ∧
    specFallback exampleSingleEdgeGraph 3 = [0, 1] ∧
    ([0, 3, 4] : List Nat) ≠ [0, 1] := by
  refine ⟨rfl, rfl, by simp⟩

/-- C9 counterexample: the coupling map lists both `(0,1)` and `(1,0)`
but only `(0,1)` carries native calibration.  The synthesized reverse
edge `(1,0)` (weight of `(0,1)` plus the direction penalty 1/2) is
overwritten when the builder later processes the native-less connection
`(1,0)` with the default error, so the final weight of `(1,0)` is
121/6000 and not 91/6000 + 1/2. -/
theorem reverse_synthesis_overwritten_counterexample :
    cxErrOf exampleProps 0 1 = some (1/100) ∧
    cxErrOf exampleProps 1 0 = none ∧
    findW (build_weighted_graph exampleBothDirBackend exampleProps 2 {}).1 0 1 =
      some (91/6000) ∧
    findW (build_weighted_graph exampleBothDirBackend exampleProps 2 {}).1 1 0 =
      some (121/6000) ∧
    (build_weighted_graph exampleBothDirBackend exampleProps 2 {}).2.direction_penalty = 1/2 ∧
    (121 : ℚ)/6000 ≠ 91/6000 + 1/2 := by
  have hstats : collect_backend_stats exampleProps =
      { mean_cx_err := 1/100, max_cx_err := 1/100, mean_1q_err := 1/10000,
        mean_ro_err := 1/50, mean_cx_dur := 1/1000000, mean_T1 := 3/50000 } := by
    show BackendStats.mk (meanD [1/100] (1/1000)) (maxD [1/100] (1/1000))
      (meanD [] (1/10000)) (meanD [] (1/50)) (meanD [] (1/1000000)) (meanD [] (3/50000)) = _
    norm_num [meanD, maxD]
  have hh : WeightHyperParams.auto_scale {} (collect_backend_stats exampleProps).toMap 2 =
      { alpha := some 100, beta := some 50, gamma := some (1/200), delta := some (1/100) } := by
    rw [hstats]; norm_num [WeightHyperParams.auto_scale, BackendStats.toMap]
  have hf01 : fwdWeight exampleProps (collect_backend_stats exampleProps)
      (WeightHyperParams.auto_scale {} (collect_backend_stats exampleProps).toMap 2) 0 1 =
      91/6000 := by
    rw [fwdWeight, hh, hstats]
    show (1/100 : ℚ) + 100 * (0 + 0) + 50 * (0 + 0) + 1/200 +
      (1/100) * (1/1000000) / max (3/50000 : ℚ) (1/1000000) = 91/6000
    rw [max_eq_left (by norm_num)]
    norm_num
  have hf10 : fwdWeight exampleProps (collect_backend_stats exampleProps)
      (WeightHyperParams.auto_scale {} (collect_backend_stats exampleProps).toMap 2) 1 0 =
      121/6000 := by
    rw [fwdWeight, hh, hstats]
    show (3/2 : ℚ) * (1/100) + 100 * (0 + 0) + 50 * (0 + 0) + 1/200 +
      (1/100) * (1/1000000) / max (3/50000 : ℚ) (1/1000000) = 121/6000
    rw [max_eq_left (by norm_num)]
    norm_num
  have hG : (build_weighted_graph exampleBothDirBackend exampleProps 2 {}).1 =
      ⟨2, [(0, 1, 91/6000), (1, 0, 121/6000)]⟩ := by
    show buildStep exampleProps (collect_backend_stats exampleProps)
      (WeightHyperParams.auto_scale {} (collect_backend_stats exampleProps).toMap 2)
      (buildStep exampleProps (collect_backend_stats exampleProps)
        (WeightHyperParams.auto_scale {} (collect_backend_stats exampleProps).toMap 2)
        ⟨2, []⟩ (0, 1)) (1, 0) = _
    rw [buildStep, buildStep]
    simp only [show cxErrOf exampleProps 1 0 = none from rfl,
      show cxErrOf exampleProps 0 1 = some (1/100) from rfl, Option.isSome,
      Bool.false_eq_true, if_false, if_true, hf01, hf10]
    simp [addEdge, WGraph.mk.injEq]
  rw [hG]
  refine ⟨rfl, rfl, rfl, rfl, rfl, by norm_num⟩

/-! ## Lemmas about the multi-start scan (`pickBest`) -/

/-- The score `total` depends only on which nodes are in the patch. -/
theorem total_congr (g : WGraph) {p q : List Nat} (h : ∀ x, x ∈ p ↔ x ∈ q) :
    total g p = total g q := by
  have hc : ∀ a, p.contains a = q.contains a := by
    intro a; simp [h a]
  unfold total
  rw [show (fun e : Nat × Nat × ℚ => p.contains e.1 && p.contains e.2.1) =
    (fun e => q.contains e.1 && q.contains e.2.1) from funext fun e => by
      rw [hc e.1, hc e.2.1]
    ]

/-- Sorting the patch does not change its score. -/
theorem total_sortNodes (g : WGraph) (p : List Nat) :
    total g (sortNodes p) = total g p :=
  total_congr g (fun _ => (List.perm_insertionSort _ p).mem_iff)

/-- A scan step yields `none` only if nothing was held and the new start
did not complete. -/
theorem pickStep_eq_none {g : WGraph} {k : Nat} (acc : Option (List Nat × ℚ))
    (e : Nat × Nat) :
    pickStep g k acc e = none ↔ acc = none ∧ (grow g k e).length ≠ k := by
  simp only [pickStep]
  split_ifs with hl
  · cases acc with
    | none => simp [hl]
    | some bw => dsimp only; split_ifs <;> simp [hl]
  · cases acc <;> simp [hl]

/-- After a completed start the scan holds a candidate at least as cheap
as that start's patch and as the previously held one. -/
theorem pickStep_complete {g : WGraph} {k : Nat} (acc : Option (List Nat × ℚ))
    (e : Nat × Nat) (hl : (grow g k e).length = k) :
    ∃ bw' : List Nat × ℚ, pickStep g k acc e = some bw' ∧
      bw'.2 ≤ total g (grow g k e) ∧ ∀ bw, acc = some bw → bw'.2 ≤ bw.2 := by
  simp only [pickStep]
  cases acc with
  | none =>
    refine ⟨(grow g k e, total g (grow g k e)), by simp [hl], le_refl _, ?_⟩
    intro bw hbw; exact absurd hbw (by simp)
  | some bw =>
    by_cases hw : total g (grow g k e) < bw.2
    · refine ⟨(grow g k e, total g (grow g k e)), by simp [hl, hw], le_refl _, ?_⟩
      intro bw0 h0
      injection h0 with h0; subst h0
      exact le_of_lt hw
    · refine ⟨bw, by simp [hl, hw], le_of_not_lt hw, ?_⟩
      intro bw0 h0
      injection h0 with h0; subst h0
      exact le_refl _

/-- A held candidate never gets more expensive across a scan step. -/
theorem pickStep_acc_some {g : WGraph} {k : Nat} (acc : Option (List Nat × ℚ))
    (e : Nat × Nat) (bw : List Nat × ℚ) (ha : acc = some bw) :
    ∃ bw', pickStep g k acc e = some bw' ∧ bw'.2 ≤ bw.2 := by
  by_cases hl : (grow g k e).length = k
  · obtain ⟨bw', h1, _, h3⟩ := pickStep_complete acc e hl
    exact ⟨bw', h1, h3 bw ha⟩
  · refine ⟨bw, ?_, le_refl _⟩
    simp [pickStep, hl, ha]

/-- Whatever a scan step holds is either what it already held or the
just-completed start's patch with its score. -/
theorem pickStep_some_src {g : WGraph} {k : Nat} (acc : Option (List Nat × ℚ))
    (e : Nat × Nat) (bw' : List Nat × ℚ) (h : pickStep g k acc e = some bw') :
    acc = some bw' ∨
      bw'.1 = grow g k e ∧ (grow g k e).length = k ∧ bw'.2 = total g (grow g k e) := by
  simp only [pickStep] at h
  split_ifs at h with hl
  · cases acc with
    | none =>
      injection h with h
      exact Or.inr ⟨by rw [← h], hl, by rw [← h]⟩
    | some bw =>
      dsimp only at h
      split_ifs at h with hw
      · injection h with h
        exact Or.inr ⟨by rw [← h], hl, by rw [← h]⟩
      · exact Or.inl h
  · exact Or.inl h

/-- The scan ends empty-handed exactly when it started empty-handed and
no sampled start completed. -/
theorem pickFold_none (g : WGraph) (k : Nat) (starts : List (Nat × Nat)) :
    ∀ acc : Option (List Nat × ℚ),
      starts.foldl (pickStep g k) acc = none ↔
        acc = none ∧ ∀ e ∈ starts, (grow g k e).length ≠ k := by
  induction starts with
  | nil => intro acc; simp
  | cons e es ih =>
    intro acc
    rw [List.foldl_cons, ih, pickStep_eq_none]
    constructor
    · rintro ⟨⟨h1, h2⟩, h3⟩
      refine ⟨h1, ?_⟩
      intro e' he'
      rcases List.mem_cons.mp he' with rfl | hmem
      · exact h2
      · exact h3 _ hmem
    · rintro ⟨h1, h2⟩
      exact ⟨⟨h1, h2 e (List.mem_cons_self e es)⟩,
        fun e' he' => h2 e' (List.mem_cons_of_mem _ he')⟩

/-- The scan's final score is minimal among the held candidate and all
completed starts. -/
theorem pickFold_min (g : WGraph) (k : Nat) (starts : List (Nat × Nat)) :
    ∀ (acc : Option (List Nat × ℚ)) (b : List Nat) (w : ℚ),
      starts.foldl (pickStep g k) acc = some (b, w) →
        (∀ bw, acc = some bw → w ≤ bw.2) ∧
        ∀ e ∈ starts, (grow g k e).length = k → w ≤ total g (grow g k e) := by
  induction starts with
  | nil =>
    intro acc b w h
    simp only [List.foldl_nil] at h
    constructor
    · intro bw hbw
      rw [h] at hbw
      injection hbw with hbw; subst hbw
      exact le_refl _
    · simp
  | cons e es ih =>
    intro acc b w h
    rw [List.foldl_cons] at h
    obtain ⟨hacc, hes⟩ := ih (pickStep g k acc e) b w h
    constructor
    · intro bw habw
      obtain ⟨bw', hstep, hle⟩ := pickStep_acc_some acc e bw habw
      exact le_trans (hacc bw' hstep) hle
    · intro e' he' hlen
      rcases List.mem_cons.mp he' with rfl | hmem
      · obtain ⟨bw', hstep, hle, _⟩ := pickStep_complete acc e' hlen
        exact le_trans (hacc bw' hstep) hle
      · exact hes e' hmem hlen

/-- The scan's final candidate is the held one or some completed start's
patch, scored by `total`. -/
theorem pickFold_src (g : WGraph) (k : Nat) (starts : List (Nat × Nat)) :
    ∀ (acc : Option (List Nat × ℚ)) (b : List Nat) (w : ℚ),
      starts.foldl (pickStep g k) acc = some (b, w) →
        acc = some (b, w) ∨
          ∃ e ∈ starts, b = grow g k e ∧ b.length = k ∧ w = total g b := by
  induction starts with
  | nil =>
    intro acc b w h
    simp only [List.foldl_nil] at h
    exact Or.inl h
  | cons e es ih =>
    intro acc b w h
    rw [List.foldl_cons] at h
    rcases ih (pickStep g k acc e) b w h with hstep | ⟨e', he', hrest⟩
    · rcases pickStep_some_src acc e (b, w) hstep with hacc | ⟨h1, h2, h3⟩
      · exact Or.inl hacc
      · dsimp only at h1 h3
        refine Or.inr ⟨e, List.mem_cons_self e es, h1, ?_, ?_⟩
        · rw [h1]; exact h2
        · rw [h3, h1]
    · exact Or.inr ⟨e', List.mem_cons_of_mem _ he', hrest⟩

/-- The scan `pickBest` is empty-handed exactly when no sampled start completed. -/
theorem pickBest_none_iff (g : WGraph) (k : Nat) (starts : List (Nat × Nat)) :
    pickBest g k starts = none ↔ ∀ e ∈ starts, (grow g k e).length ≠ k := by
  unfold pickBest
  rw [pickFold_none]
  simp

/-- The scan result of `pickBest` is a completed start's patch of minimal `total`
score among all completed starts. -/
theorem pickBest_some_spec (g : WGraph) (k : Nat) (starts : List (Nat × Nat))
    (b : List Nat) (w : ℚ) (h : pickBest g k starts = some (b, w)) :
    (∃ e ∈ starts, b = grow g k e) ∧ b.length = k ∧ w = total g b ∧
      ∀ e ∈ starts, (grow g k e).length = k → w ≤ total g (grow g k e) := by
  rcases pickFold_src g k starts none b w h with hno | ⟨e, he, h1, h2, h3⟩
  · exact absurd hno (by simp)
  · exact ⟨⟨e, he, h1⟩, h2, h3, (pickFold_min g k starts none b w h).2⟩

/-! ## C2 (amended): no refinement phase — the returned patch is the
best greedy candidate unchanged -/

/-- C2 (corrected): `greedy_pick` performs no local-refinement phase.
Whenever some start completes, the returned patch is exactly the best
greedy candidate, sorted, and its score equals — hence does not exceed —
the score of the best candidate immediately after greedy growth (the
minimum over all completed starts). -/
theorem greedy_pick_returns_unrefined_best (g : WGraph) (k : Nat)
    (starts : List (Nat × Nat)) (fb : List Nat) (b : List Nat) (w : ℚ)
    (hk : k ≤ g.n) (he : g.edges ≠ [])
    (hp : pickBest g k starts = some (b, w)) :
    greedy_pick g k starts fb = .ok (sortNodes b) ∧
    total g (sortNodes b) = w ∧
    ∀ e ∈ starts, (grow g k e).length = k → w ≤ total g (grow g k e) := by
  have hspec := pickBest_some_spec g k starts b w hp
  refine ⟨?_, ?_, hspec.2.2.2⟩
  · unfold greedy_pick
    rw [if_neg (Nat.not_lt.mpr hk), if_neg he, hp]
  · rw [total_sortNodes, hspec.2.2.1]

/-- Witness for C2's amended theorem on the triangle graph. -/
theorem greedy_pick_returns_unrefined_best_witness :
    greedy_pick exampleTriangle 3 [(0, 1)] [] = .ok (sortNodes [2, 1, 0]) ∧
    total exampleTriangle (sortNodes [2, 1, 0]) = 3 := by
  have hp : pickBest exampleTriangle 3 [(0, 1)] = some ([2, 1, 0], 3) := by
    show some ([2, 1, 0], total exampleTriangle [2, 1, 0]) = some ([2, 1, 0], 3)
    norm_num [total, exampleTriangle]
  have h := greedy_pick_returns_unrefined_best exampleTriangle 3 [(0, 1)] [] [2, 1, 0] 3
    (by decide) (by decide) hp
  exact ⟨h.1, h.2.1⟩

/-! ## C3 (amended): the retained candidate minimises the directed-sum
score -/

/-- C3 (corrected): the score of a candidate is the sum of `weight` over
all stored directed edges inside the patch — a pair stored in both
directions contributes both stored weights, not one — and whenever some
start completes, the returned patch is a completed candidate of minimal
such score across all sampled starts. -/
theorem greedy_pick_retains_min_score (g : WGraph) (k : Nat)
    (starts : List (Nat × Nat)) (fb : List Nat) (p : List Nat)
    (hok : greedy_pick g k starts fb = .ok p)
    (hex : ∃ e ∈ starts, (grow g k e).length = k) :
    ∃ b w, pickBest g k starts = some (b, w) ∧ p = sortNodes b ∧ w = total g b ∧
      total g p = w ∧
      ∀ e ∈ starts, (grow g k e).length = k → w ≤ total g (grow g k e) := by
  cases hp : pickBest g k starts with
  | none =>
    rcases hex with ⟨e, he, hlen⟩
    exact absurd hlen ((pickBest_none_iff g k starts).mp hp e he)
  | some bw =>
    obtain ⟨b, w⟩ := bw
    have hspec := pickBest_some_spec g k starts b w hp
    have hpk : p = sortNodes b := by
      simp only [greedy_pick] at hok
      split_ifs at hok with h1 h2
      rw [hp] at hok
      dsimp only at hok
      injection hok with hok
      exact hok.symm
    refine ⟨b, w, rfl, hpk, hspec.2.2.1, ?_, hspec.2.2.2⟩
    rw [hpk, total_sortNodes, hspec.2.2.1]

/-- Witness for C3's amended theorem on the triangle graph. -/
theorem greedy_pick_retains_min_score_witness :
    ∃ b w, pickBest exampleTriangle 3 [(0, 1)] = some (b, w) ∧
      ([0, 1, 2] : List Nat) = sortNodes b ∧ w = total exampleTriangle b ∧
      total exampleTriangle [0, 1, 2] = w ∧
      ∀ e ∈ [(0, 1)], (grow exampleTriangle 3 e).length = 3 →
        w ≤ total exampleTriangle (grow exampleTriangle 3 e) :=
  greedy_pick_retains_min_score exampleTriangle 3 [(0, 1)] [] [0, 1, 2]
    rfl ⟨(0, 1), by simp, rfl⟩

/-! ## C4 (amended): the fallback is a pseudo-random node sample -/

/-- C4 (corrected): when no sampled start completes at size `k` (and the
input passed both validity checks), `greedy_pick` does not grow from the
lowest-weight edge and raises nothing: it returns the sorted fallback
node sample drawn from `range(n)` — a set that need not be connected. -/
theorem greedy_pick_fallback_is_sample (g : WGraph) (k : Nat)
    (starts : List (Nat × Nat)) (fb : List Nat)
    (hk : k ≤ g.n) (he : g.edges ≠ [])
    (hnone : ∀ e ∈ starts, (grow g k e).length ≠ k) :
    greedy_pick g k starts fb = .ok (sortNodes fb) := by
  have hp : pickBest g k starts = none := (pickBest_none_iff g k starts).mpr hnone
  unfold greedy_pick
  rw [if_neg (Nat.not_lt.mpr hk), if_neg he, hp]

/-- Witness for C4's amended theorem on the single-edge graph. -/
theorem greedy_pick_fallback_is_sample_witness :
    greedy_pick exampleSingleEdgeGraph 3 [(0, 1)] [2, 3, 4] = .ok (sortNodes [2, 3, 4]) :=
  greedy_pick_fallback_is_sample exampleSingleEdgeGraph 3 [(0, 1)] [2, 3, 4]
    (by decide) (by decide) (by decide)

/-! ## Connectivity lemmas: grown patches pass the reachability check -/

/-- Adjacency ignoring direction is symmetric. -/
theorem adjB_symm (g : WGraph) (a b : Nat) : adjB g a b = adjB g b a := by
  unfold adjB
  exact Bool.or_comm _ _

/-- A sweep only ever extends the visited list. -/
theorem subset_reachClosure (g : WGraph) (p : List Nat) :
    ∀ (f : Nat) (vis : List Nat), vis ⊆ reachClosure g p f vis := by
  intro f
  induction f with
  | zero => intro vis; exact fun _ h => h
  | succ f ih =>
    intro vis
    exact fun a ha => ih (growVisited g p vis) (List.subset_append_left _ _ ha)

/-- Sweeps stay inside the patch. -/
theorem reachClosure_subset (g : WGraph) (p : List Nat) :
    ∀ (f : Nat) (vis : List Nat), vis ⊆ p → reachClosure g p f vis ⊆ p := by
  intro f
  induction f with
  | zero => intro vis h; exact h
  | succ f ih =>
    intro vis h
    apply ih
    intro a ha
    rcases List.mem_append.mp ha with h1 | h2
    · exact h (by exact h1)
    · exact List.mem_of_mem_filter h2

/-- A sweep preserves duplicate-freeness. -/
theorem growVisited_nodup (g : WGraph) {p vis : List Nat} (hp : p.Nodup)
    (hv : vis.Nodup) : (growVisited g p vis).Nodup := by
  apply List.Nodup.append hv (hp.filter _)
  intro a ha hb
  have := List.of_mem_filter hb
  simp only [Bool.and_eq_true, Bool.not_eq_true'] at this
  have hca : vis.contains a = true := by
    simpa using ha
  rw [this.1] at hca
  exact absurd hca (by simp)

/-- Iterated sweeps preserve duplicate-freeness. -/
theorem reachClosure_nodup (g : WGraph) {p : List Nat} (hp : p.Nodup) :
    ∀ (f : Nat) (vis : List Nat), vis.Nodup → (reachClosure g p f vis).Nodup := by
  intro f
  induction f with
  | zero => intro vis h; exact h
  | succ f ih => intro vis h; exact ih _ (growVisited_nodup g hp h)

/-- Once the sweep frontier is empty the closure is stable. -/
theorem reachClosure_of_closed (g : WGraph) {p vis : List Nat}
    (h : stepAdds g p vis = []) : ∀ f, reachClosure g p f vis = vis := by
  intro f
  induction f with
  | zero => rfl
  | succ f ih =>
    show reachClosure g p f (growVisited g p vis) = vis
    rw [growVisited, h, List.append_nil]
    exact ih

/-- After as many sweeps as the patch has members, the closure is
saturated. -/
theorem reachClosure_closed (g : WGraph) {p : List Nat} (hp : p.Nodup) :
    ∀ (f : Nat) (vis : List Nat), vis.Nodup → vis ⊆ p → p.length ≤ f + vis.length →
      stepAdds g p (reachClosure g p f vis) = [] := by
  intro f
  induction f with
  | zero =>
    intro vis hn hsub hlen
    show stepAdds g p vis = []
    have hsub' : p ⊆ vis := by
      have h1 : vis.toFinset ⊆ p.toFinset := by
        intro a ha
        rw [List.mem_toFinset] at ha ⊢
        exact hsub ha
      have h2 : p.toFinset = vis.toFinset := by
        apply (Finset.eq_of_subset_of_card_le h1 ?_).symm
        rw [List.toFinset_card_of_nodup hp, List.toFinset_card_of_nodup hn]
        simpa using hlen
      intro a ha
      rw [← List.mem_toFinset, ← h2, List.mem_toFinset]
      exact ha
    unfold stepAdds
    rw [List.filter_eq_nil_iff]
    intro a ha
    have hca : vis.contains a = true := by simpa using hsub' ha
    simp only [hca, Bool.not_true, Bool.false_and]
    simp
  | succ f ih =>
    intro vis hn hsub hlen
    show stepAdds g p (reachClosure g p f (growVisited g p vis)) = []
    by_cases hc : stepAdds g p vis = []
    · have hgv : growVisited g p vis = vis := by
        rw [growVisited, hc, List.append_nil]
      rw [hgv, reachClosure_of_closed g hc f]
      exact hc
    · apply ih (growVisited g p vis) (growVisited_nodup g hp hn)
      · intro a ha
        rcases List.mem_append.mp ha with h1 | h2
        · exact hsub h1
        · exact List.mem_of_mem_filter h2
      · have hlen2 : vis.length + 1 ≤ (growVisited g p vis).length := by
          rw [growVisited, List.length_append]
          have := List.length_pos.mpr hc
          omega
        omega

/-- In a saturated visited list, anything in the patch adjacent to a
visited node is itself visited. -/
theorem mem_of_closed_adj (g : WGraph) {p vis : List Nat} {a b : Nat}
    (hcl : stepAdds g p vis = []) (ha : a ∈ vis) (hb : b ∈ p)
    (hadj : adjB g a b = true) : b ∈ vis := by
  by_contra hnb
  have hmem : b ∈ stepAdds g p vis := by
    unfold stepAdds
    rw [List.mem_filter]
    refine ⟨hb, ?_⟩
    simp only [Bool.and_eq_true, Bool.not_eq_true', List.any_eq_true]
    exact ⟨by simpa using hnb, a, ha, hadj⟩
  rw [hcl] at hmem
  exact absurd hmem (List.not_mem_nil b)

/-- Every member of a grown patch is swept up by any saturated visited
list that touches the patch. -/
theorem Grown.mem_closed {g : WGraph} {b : List Nat} (hg : Grown g b) :
    ∀ (P vis : List Nat), (∀ y ∈ b, y ∈ P) → stepAdds g P vis = [] →
      (∃ y ∈ b, y ∈ vis) → ∀ v ∈ b, v ∈ vis := by
  induction hg with
  | single u =>
    intro P vis _ _ hex v hv
    rcases hex with ⟨y, hy, hyvis⟩
    simp only [List.mem_singleton] at hy hv
    rw [hv, ← hy]
    exact hyvis
  | pair u v hne hadj =>
    intro P vis hsub hcl hex x hx
    rcases hex with ⟨y, hy, hyvis⟩
    have hu_mem : u ∈ P := hsub u (by simp)
    have hv_mem : v ∈ P := hsub v (by simp)
    have hboth : u ∈ vis ∧ v ∈ vis := by
      rcases List.mem_cons.mp hy with rfl | hy2
      · exact ⟨mem_of_closed_adj g hcl hyvis hu_mem (by rw [adjB_symm]; exact hadj), hyvis⟩
      · simp only [List.mem_singleton] at hy2
        subst hy2
        exact ⟨hyvis, mem_of_closed_adj g hcl hyvis hv_mem hadj⟩
    rcases List.mem_cons.mp hx with rfl | hx2
    · exact hboth.2
    · simp only [List.mem_singleton] at hx2
      rw [hx2]
      exact hboth.1
  | step p w q hgp hqmem hwnot hadj ih =>
    intro P vis hsub hcl hex v hv
    have hsubp : ∀ y ∈ p, y ∈ P := fun y hy => hsub y (List.mem_cons_of_mem _ hy)
    have hqvis : (∃ y ∈ p, y ∈ vis) → ∀ x ∈ p, x ∈ vis :=
      fun hy => ih P vis hsubp hcl hy
    rcases hex with ⟨y, hy, hyvis⟩
    rcases List.mem_cons.mp hy with rfl | hyp
    · have hq : q ∈ vis :=
        mem_of_closed_adj g hcl hyvis (hsubp q hqmem) (by rw [adjB_symm]; exact hadj)
      have hall := hqvis ⟨q, hqmem, hq⟩
      rcases List.mem_cons.mp hv with rfl | hvp
      · exact hyvis
      · exact hall v hvp
    · have hall := hqvis ⟨y, hyp, hyvis⟩
      rcases List.mem_cons.mp hv with rfl | hvp
      · exact mem_of_closed_adj g hcl (hall q hqmem) (hsub v (List.mem_cons_self _ _)) hadj
      · exact hall v hvp

/-- A grown patch has no duplicates. -/
theorem Grown.nodup {g : WGraph} {p : List Nat} (h : Grown g p) : p.Nodup := by
  induction h with
  | single u => exact List.nodup_singleton u
  | pair u v hne _ => simp [hne.symm]
  | step p w q _ _ hwnot _ ih => exact List.nodup_cons.mpr ⟨hwnot, ih⟩

/-- Any duplicate-free list with the same members as a grown patch
passes the breadth-first connectivity check. -/
theorem connectedB_of_grown {g : WGraph} {b : List Nat} (hg : Grown g b)
    (p : List Nat) (hmem : ∀ x, x ∈ p ↔ x ∈ b) (hnd : p.Nodup) :
    connectedB g p = true := by
  cases hp : p with
  | nil => rfl
  | cons x xs =>
    subst hp
    unfold connectedB
    rw [List.all_eq_true]
    intro v hv
    have hx_in : x ∈ x :: xs := List.mem_cons_self _ _
    have hclosed : stepAdds g (x :: xs) (reachClosure g (x :: xs) (x :: xs).length [x]) = [] := by
      apply reachClosure_closed g hnd
      · exact List.nodup_singleton x
      · intro a ha
        simp only [List.mem_singleton] at ha
        rw [ha]
        exact hx_in
      · simp
    have hx_vis : x ∈ reachClosure g (x :: xs) (x :: xs).length [x] :=
      subset_reachClosure g (x :: xs) _ [x] (List.mem_singleton.mpr rfl)
    have hall := Grown.mem_closed hg (x :: xs)
      (reachClosure g (x :: xs) (x :: xs).length [x])
      (fun y hy => (hmem y).mpr hy) hclosed
      ⟨x, (hmem x).mp hx_in, hx_vis⟩
    have hvb := (hmem v).mp hv
    simpa using hall v hvb

/-! ## Lemmas about greedy growth (`grow`) -/

/-- Predicate `has_edge` holds exactly when some stored entry carries the ordered
pair. -/
theorem hasEdgeB_iff (g : WGraph) (u v : Nat) :
    hasEdgeB g u v = true ↔ ∃ w, (u, v, w) ∈ g.edges := by
  unfold hasEdgeB findW
  cases hf : List.find? (fun e => decide (e.1 = u ∧ e.2.1 = v)) g.edges with
  | none =>
    simp only [Option.map_none', Option.isSome_none, Bool.false_eq_true, false_iff]
    rintro ⟨w, hw⟩
    have h2 := List.find?_eq_none.mp hf (u, v, w) hw
    simp at h2
  | some e =>
    simp only [Option.map_some', Option.isSome_some, true_iff]
    have hpe := List.find?_some hf
    have hme := List.mem_of_find?_eq_some hf
    simp only [decide_eq_true_eq] at hpe
    obtain ⟨e1, e2, e3⟩ := e
    obtain ⟨h1, h2⟩ := hpe
    subst h1
    subst h2
    exact ⟨e3, hme⟩

/-- Undirected adjacency holds exactly when an entry joins the pair in
some direction. -/
theorem adjB_iff (g : WGraph) (u v : Nat) :
    adjB g u v = true ↔ (∃ w, (u, v, w) ∈ g.edges) ∨ ∃ w, (v, u, w) ∈ g.edges := by
  unfold adjB
  rw [Bool.or_eq_true, hasEdgeB_iff, hasEdgeB_iff]

/-- Neighbour lists only contain nodes adjacent to the queried node. -/
theorem adjB_of_mem_nbrs {g : WGraph} {q v : Nat} (h : v ∈ nbrs g q) :
    adjB g q v = true := by
  unfold nbrs at h
  rw [adjB_iff]
  rcases List.mem_append.mp h with h1 | h1
  · left
    obtain ⟨e, he, hpe⟩ := List.mem_filterMap.mp h1
    split_ifs at hpe with hq
    injection hpe with hpe
    refine ⟨e.2.2, ?_⟩
    have he2 : e = (q, v, e.2.2) := by
      obtain ⟨e1, e2, e3⟩ := e
      simp only at hq hpe
      rw [hq, hpe]
    rw [← he2]; exact he
  · right
    obtain ⟨e, he, hpe⟩ := List.mem_filterMap.mp h1
    split_ifs at hpe with hq
    injection hpe with hpe
    refine ⟨e.2.2, ?_⟩
    have he2 : e = (v, q, e.2.2) := by
      obtain ⟨e1, e2, e3⟩ := e
      simp only at hq hpe
      rw [hq, hpe]
    rw [← he2]; exact he

/-- Neighbours come from stored entries, so they are genuine node
indices whenever the edge list is within range. -/
theorem mem_nbrs_lt {g : WGraph} (hval : ∀ e ∈ g.edges, e.1 < g.n ∧ e.2.1 < g.n)
    {q v : Nat} (h : v ∈ nbrs g q) : v < g.n := by
  have := adjB_of_mem_nbrs h
  rw [adjB_iff] at this
  rcases this with ⟨w, hw⟩ | ⟨w, hw⟩
  · exact (hval _ hw).2
  · exact (hval _ hw).1

/-- Frontier entries: the node is outside the patch, is a neighbour of
some patch member, in range when the graph is. -/
theorem growFrontier_spec {g : WGraph} {p : List Nat} {wv : ℚ × Nat}
    (h : wv ∈ growFrontier g p) :
    wv.2 ∉ p ∧ ∃ q ∈ p, wv.2 ∈ nbrs g q := by
  unfold growFrontier at h
  obtain ⟨q, hq, hmem⟩ := List.mem_flatMap.mp h
  obtain ⟨v, hv, hpe⟩ := List.mem_filterMap.mp hmem
  split_ifs at hpe with hvp
  injection hpe with hpe
  have hv2 : wv.2 = v := by rw [← hpe]
  rw [hv2]
  exact ⟨hvp, q, hq, hv⟩

/-- The lexicographic minimum of a nonempty list is one of its
elements. -/
theorem lexMin_mem {l : List (ℚ × Nat)} {m : ℚ × Nat} (h : lexMin l = some m) :
    m ∈ l := by
  unfold lexMin at h
  cases l with
  | nil => exact absurd h (by simp)
  | cons x xs =>
    injection h with h
    rw [← h]
    clear h
    induction xs generalizing x with
    | nil => simp
    | cons y ys ih =>
      rw [List.foldl_cons]
      have step : (if y.1 < x.1 ∨ (y.1 = x.1 ∧ y.2 < x.2) then y else x) = y ∨
          (if y.1 < x.1 ∨ (y.1 = x.1 ∧ y.2 < x.2) then y else x) = x := by
        split_ifs <;> simp
      rcases step with hs | hs <;> rw [hs]
      · have := ih y
        rcases List.mem_cons.mp this with h1 | h1
        · rw [h1]; simp
        · simp [List.mem_cons_of_mem, h1]
      · have := ih x
        rcases List.mem_cons.mp this with h1 | h1
        · rw [h1]; simp
        · simp [List.mem_cons_of_mem, h1]

/-- Greedy growth preserves the grown-patch shape. -/
theorem growAux_grown (g : WGraph) (k : Nat) :
    ∀ (fuel : Nat) (p : List Nat), Grown g p → Grown g (growAux g k fuel p) := by
  intro fuel
  induction fuel with
  | zero => intro p h; exact h
  | succ f ih =>
    intro p h
    unfold growAux
    split_ifs with hl
    · cases hm : lexMin (growFrontier g p) with
      | none => exact h
      | some wv =>
        apply ih
        obtain ⟨hout, q, hq, hnb⟩ := growFrontier_spec (lexMin_mem hm)
        exact Grown.step p wv.2 q h hq hout (adjB_of_mem_nbrs hnb)
    · exact h

/-- Greedy growth keeps node indices in range. -/
theorem growAux_lt (g : WGraph) (k : Nat)
    (hval : ∀ e ∈ g.edges, e.1 < g.n ∧ e.2.1 < g.n) :
    ∀ (fuel : Nat) (p : List Nat), (∀ x ∈ p, x < g.n) →
      ∀ x ∈ growAux g k fuel p, x < g.n := by
  intro fuel
  induction fuel with
  | zero => intro p h; exact h
  | succ f ih =>
    intro p h
    unfold growAux
    split_ifs with hl
    · cases hm : lexMin (growFrontier g p) with
      | none => exact h
      | some wv =>
        apply ih
        intro x hx
        rcases List.mem_cons.mp hx with rfl | hxp
        · obtain ⟨_, q, _, hnb⟩ := growFrontier_spec (lexMin_mem hm)
          exact mem_nbrs_lt hval hnb
        · exact h x hxp
    · exact h

/-- A patch grown from a stored edge has the grown shape. -/
theorem grow_grown (g : WGraph) (k : Nat) (u v : Nat)
    (hw : ∃ w, (u, v, w) ∈ g.edges) : Grown g (grow g k (u, v)) := by
  unfold grow
  apply growAux_grown
  dsimp only
  split_ifs with huv
  · subst huv; exact Grown.single u
  · refine Grown.pair u v huv ?_
    rw [adjB_iff]
    exact Or.inl hw

/-- A patch grown from a stored edge stays in range. -/
theorem grow_lt (g : WGraph) (k : Nat) (u v : Nat)
    (hval : ∀ e ∈ g.edges, e.1 < g.n ∧ e.2.1 < g.n)
    (hw : ∃ w, (u, v, w) ∈ g.edges) : ∀ x ∈ grow g k (u, v), x < g.n := by
  unfold grow
  apply growAux_lt g k hval
  obtain ⟨w, hmem⟩ := hw
  have h1 := hval _ hmem
  dsimp only
  intro x hx
  split_ifs at hx with huv
  · simp only [List.mem_singleton] at hx
    rw [hx]; exact h1.1
  · rcases List.mem_cons.mp hx with rfl | hx2
    · exact h1.2
    · simp only [List.mem_singleton] at hx2
      rw [hx2]; exact h1.1

/-! ## C1 (amended): sorted size-k patch, connected when greedy succeeds -/

/-- A successful `greedy_pick` returns either the sorted best greedy
candidate or the sorted fallback sample. -/
theorem greedy_pick_ok_eq (g : WGraph) (k : Nat) (starts : List (Nat × Nat))
    (fb : List Nat) (p : List Nat) (hok : greedy_pick g k starts fb = .ok p) :
    (∃ b w, pickBest g k starts = some (b, w) ∧ p = sortNodes b) ∨
      (pickBest g k starts = none ∧ p = sortNodes fb) := by
  simp only [greedy_pick] at hok
  split_ifs at hok with h1 h2
  cases hp : pickBest g k starts with
  | none =>
    rw [hp] at hok
    dsimp only at hok
    injection hok with hok
    exact Or.inr ⟨rfl, hok.symm⟩
  | some bw =>
    rw [hp] at hok
    dsimp only at hok
    injection hok with hok
    exact Or.inl ⟨bw.1, bw.2, rfl, hok.symm⟩

/-- C1 (corrected): on valid draws (start edges sampled from the edge
list, fallback drawn without replacement from `range(n)`), `greedy_pick`
returns a strictly sorted list of exactly `k` node indices below `n`;
its induced subgraph is connected (breadth-first over all edges ignoring
direction) whenever at least one sampled start grows to full size `k` —
but not necessarily otherwise, because the fallback sample is an
arbitrary node set. -/
theorem greedy_pick_valid_patch (g : WGraph) (k : Nat) (starts : List (Nat × Nat))
    (fb : List Nat) (p : List Nat)
    (hval : ∀ e ∈ g.edges, e.1 < g.n ∧ e.2.1 < g.n)
    (hstarts : ∀ uv ∈ starts, ∃ w, (uv.1, uv.2, w) ∈ g.edges)
    (hfb_len : fb.length = k) (hfb_nd : fb.Nodup) (hfb_lt : ∀ x ∈ fb, x < g.n)
    (hok : greedy_pick g k starts fb = .ok p) :
    p.length = k ∧ p.Sorted (fun a b => a < b) ∧ (∀ x ∈ p, x < g.n) ∧
      ((∃ uv ∈ starts, (grow g k uv).length = k) → connectedB g p = true) := by
  rcases greedy_pick_ok_eq g k starts fb p hok with ⟨b, w, hp, hpk⟩ | ⟨hp, hpk⟩
  · have hspec := pickBest_some_spec g k starts b w hp
    obtain ⟨⟨e, he, hbe⟩, hlen, _, _⟩ := hspec
    obtain ⟨we, hwe⟩ := hstarts e he
    have hgrown : Grown g b := by
      rw [hbe]
      exact grow_grown g k e.1 e.2 ⟨we, hwe⟩
    have hperm : (sortNodes b).Perm b := List.perm_insertionSort _ b
    have hnd : (sortNodes b).Nodup := hperm.nodup_iff.mpr hgrown.nodup
    subst hpk
    refine ⟨by rw [hperm.length_eq, hlen],
      (List.sorted_insertionSort _ b).lt_of_le hnd, ?_, ?_⟩
    · intro x hx
      apply grow_lt g k e.1 e.2 hval ⟨we, hwe⟩
      rw [← hbe]
      exact hperm.mem_iff.mp hx
    · intro _
      exact connectedB_of_grown hgrown (sortNodes b) (fun x => hperm.mem_iff) hnd
  · have hperm : (sortNodes fb).Perm fb := List.perm_insertionSort _ fb
    have hnd : (sortNodes fb).Nodup := hperm.nodup_iff.mpr hfb_nd
    subst hpk
    refine ⟨by rw [hperm.length_eq, hfb_len],
      (List.sorted_insertionSort _ fb).lt_of_le hnd, ?_, ?_⟩
    · intro x hx
      exact hfb_lt x (hperm.mem_iff.mp hx)
    · rintro ⟨uv, huv, hlen⟩
      exact absurd hlen ((pickBest_none_iff g k starts).mp hp uv huv)

/-- Witness for C1's amended theorem on the triangle graph, where the
single sampled start completes. -/
theorem greedy_pick_valid_patch_witness :
    ([0, 1, 2] : List Nat).length = 3 ∧
    ([0, 1, 2] : List Nat).Sorted (fun a b => a < b) ∧
    (∀ x ∈ ([0, 1, 2] : List Nat), x < exampleTriangle.n) ∧
    ((∃ uv ∈ [((0 : Nat), (1 : Nat))], (grow exampleTriangle 3 uv).length = 3) →
      connectedB exampleTriangle [0, 1, 2] = true) := by
  apply greedy_pick_valid_patch exampleTriangle 3 [(0, 1)] [0, 1, 2] [0, 1, 2]
    (by decide) ?_ (by decide) (by decide) (by decide) rfl
  intro uv huv
  simp only [List.mem_singleton] at huv
  subst huv
  exact ⟨1, List.mem_cons_self _ _⟩

/-! ## Lemmas about the graph builder's edge writes -/

/-- Elements surviving a filter that keeps everything the search
predicate accepts do not change the search result. -/
theorem find?_filter_eq {α : Type} (p q : α → Bool) (l : List α)
    (h : ∀ x, p x = true → q x = true) :
    List.find? p (l.filter q) = List.find? p l := by
  induction l with
  | nil => rfl
  | cons x xs ih =>
    by_cases hq : q x = true
    · rw [List.filter_cons_of_pos hq]
      cases hpx : p x
      · rw [List.find?_cons_of_neg _ (by simp [hpx]),
          List.find?_cons_of_neg _ (by simp [hpx]), ih]
      · rw [List.find?_cons_of_pos _ hpx, List.find?_cons_of_pos _ hpx]
    · have hp : p x = false := by
        cases hpx : p x
        · rfl
        · exact absurd (h x hpx) hq
      rw [List.filter_cons_of_neg (by simp [hq]), ih,
        List.find?_cons_of_neg _ (by simp [hp])]

/-- Operation `add_edge` overwrites the addressed ordered pair and leaves every
other pair's weight unchanged. -/
theorem findW_addEdge (g : WGraph) (u v a b : Nat) (w : ℚ) :
    findW (addEdge g u v w) a b = if a = u ∧ b = v then some w else findW g a b := by
  unfold findW addEdge
  dsimp only
  rw [List.find?_append]
  by_cases hab : a = u ∧ b = v
  · rw [if_pos hab]
    have h1 : List.find? (fun e : Nat × Nat × ℚ => decide (e.1 = a ∧ e.2.1 = b))
        (g.edges.filter fun e => decide ¬(e.1 = u ∧ e.2.1 = v)) = none := by
      rw [List.find?_eq_none]
      intro x hx
      have hq := (List.mem_filter.mp hx).2
      simp only [decide_eq_true_eq] at hq
      simp only [decide_eq_true_eq]
      intro hc
      exact hq ⟨hab.1 ▸ hc.1, hab.2 ▸ hc.2⟩
    rw [h1]
    simp [hab.1, hab.2]
  · rw [if_neg hab]
    have h2 : List.find? (fun e : Nat × Nat × ℚ => decide (e.1 = a ∧ e.2.1 = b))
        [(u, v, w)] = none := by
      simp only [List.find?_singleton]
      rw [if_neg]
      simp only [decide_eq_true_eq]
      intro hc
      exact hab ⟨hc.1.symm, hc.2.symm⟩
    rw [h2, Option.or_none]
    rw [find?_filter_eq]
    intro x hx
    simp only [decide_eq_true_eq] at hx
    simp only [decide_eq_true_eq]
    intro hc
    exact hab ⟨hx.1 ▸ hc.1.symm ▸ rfl, hx.2 ▸ hc.2.symm ▸ rfl⟩

/-- The effect of one builder iteration on any pair's stored weight:
the synthesized reverse write (when it fires) lands last, then the
forward write, then the previous state. -/
theorem findW_buildStep (props : Props) (stats : BackendStats) (hp : WeightHyperParams)
    (g : WGraph) (ct : Nat × Nat) (a b : Nat) :
    findW (buildStep props stats hp g ct) a b =
      if a = ct.2 ∧ b = ct.1 ∧ cxErrOf props ct.2 ct.1 = none
      then some (fwdWeight props stats hp ct.1 ct.2 + hp.direction_penalty)
      else if a = ct.1 ∧ b = ct.2 then some (fwdWeight props stats hp ct.1 ct.2)
      else findW g a b := by
  simp only [buildStep]
  by_cases hsyn : (cxErrOf props ct.2 ct.1).isSome = true
  · rw [if_pos hsyn, findW_addEdge]
    have hnone : ¬(a = ct.2 ∧ b = ct.1 ∧ cxErrOf props ct.2 ct.1 = none) := by
      rintro ⟨_, _, hn⟩
      rw [hn] at hsyn
      simp at hsyn
    rw [if_neg hnone]
  · rw [if_neg hsyn, findW_addEdge, findW_addEdge]
    have hn : cxErrOf props ct.2 ct.1 = none := Option.not_isSome_iff_eq_none.mp hsyn
    simp only [hn, and_true]

/-- Builder iterations never delete an edge. -/
theorem buildFold_isSome_mono (props : Props) (stats : BackendStats)
    (hp : WeightHyperParams) :
    ∀ (L : List (Nat × Nat)) (g : WGraph) (a b : Nat),
      (findW g a b).isSome = true →
      (findW (L.foldl (buildStep props stats hp) g) a b).isSome = true := by
  intro L
  induction L with
  | nil => intro g a b h; exact h
  | cons ct cts ih =>
    intro g a b h
    rw [List.foldl_cons]
    apply ih
    rw [findW_buildStep]
    split_ifs <;> simp [h]

/-- Any connection whose reverse lacks native calibration leaves the
reverse edge present in the final graph. -/
theorem buildFold_rev_present (props : Props) (stats : BackendStats)
    (hp : WeightHyperParams) (u v : Nat) (hrev : cxErrOf props v u = none) :
    ∀ (L : List (Nat × Nat)) (g : WGraph), (u, v) ∈ L →
      (findW (L.foldl (buildStep props stats hp) g) v u).isSome = true := by
  intro L
  induction L with
  | nil => intro g hm; exact absurd hm (List.not_mem_nil _)
  | cons ct cts ih =>
    intro g hm
    rw [List.foldl_cons]
    rcases List.mem_cons.mp hm with rfl | hmem
    · apply buildFold_isSome_mono
      rw [findW_buildStep]
      rw [if_pos ⟨rfl, rfl, hrev⟩]
      simp
    · exact ih _ hmem

/-- Final weight of the forward direction of a natively calibrated
connection: written by its own iterations only, hence the composite
forward weight. -/
theorem buildFold_findW_fwd (props : Props) (stats : BackendStats)
    (hp : WeightHyperParams) (u v : Nat) (he : cxErrOf props u v ≠ none) :
    ∀ (L : List (Nat × Nat)) (g : WGraph),
      findW (L.foldl (buildStep props stats hp) g) u v =
        if (u, v) ∈ L then some (fwdWeight props stats hp u v) else findW g u v := by
  intro L
  induction L with
  | nil => intro g; simp
  | cons ct cts ih =>
    intro g
    obtain ⟨c1, c2⟩ := ct
    rw [List.foldl_cons, ih]
    by_cases hin : (u, v) ∈ cts
    · simp [hin]
    · have hiff : ((u, v) ∈ (c1, c2) :: cts) ↔ (c1, c2) = ((u : Nat), v) := by
        rw [List.mem_cons]
        constructor
        · rintro (h | h)
          · exact h.symm
          · exact absurd h hin
        · intro h; exact Or.inl h.symm
      rw [if_neg hin, findW_buildStep]
      dsimp only
      by_cases hct : (c1, c2) = ((u : Nat), v)
      · injection hct with hA hB
        have hA2 : u = c1 := hA.symm
        have hB2 : v = c2 := hB.symm
        subst hA2
        subst hB2
        have h1 : ¬(u = v ∧ v = u ∧ cxErrOf props v u = none) := by
          rintro ⟨ha, _, hn⟩
          subst ha
          exact he hn
        rw [if_neg h1, if_pos ⟨rfl, rfl⟩, if_pos (hiff.mpr rfl)]
      · have h1 : ¬(u = c2 ∧ v = c1 ∧ cxErrOf props c2 c1 = none) := by
          rintro ⟨ha, hb, hn⟩
          subst ha
          subst hb
          exact he hn
        have h2 : ¬(u = c1 ∧ v = c2) := by
          rintro ⟨ha, hb⟩
          subst ha
          subst hb
          exact hct rfl
        rw [if_neg h1, if_neg h2, if_neg (fun h => hct (hiff.mp h))]

/-- Final weight of the synthesized reverse direction, provided the
reverse pair is not itself a connection: forward weight plus the
direction penalty. -/
theorem buildFold_findW_rev (props : Props) (stats : BackendStats)
    (hp : WeightHyperParams) (u v : Nat) (hrev : cxErrOf props v u = none) :
    ∀ (L : List (Nat × Nat)) (g : WGraph), (v, u) ∉ L →
      findW (L.foldl (buildStep props stats hp) g) v u =
        if (u, v) ∈ L then some (fwdWeight props stats hp u v + hp.direction_penalty)
        else findW g v u := by
  intro L
  induction L with
  | nil => intro g _; simp
  | cons ct cts ih =>
    intro g hnot
    obtain ⟨c1, c2⟩ := ct
    have hct_ne : ((c1 : Nat), c2) ≠ ((v : Nat), u) := by
      intro h
      exact hnot (h ▸ List.mem_cons_self _ _)
    have hnot2 : (v, u) ∉ cts := fun h => hnot (List.mem_cons_of_mem _ h)
    rw [List.foldl_cons, ih _ hnot2]
    by_cases hin : (u, v) ∈ cts
    · simp [hin]
    · have hiff : ((u, v) ∈ (c1, c2) :: cts) ↔ (c1, c2) = ((u : Nat), v) := by
        rw [List.mem_cons]
        constructor
        · rintro (h | h)
          · exact h.symm
          · exact absurd h hin
        · intro h; exact Or.inl h.symm
      rw [if_neg hin, findW_buildStep]
      dsimp only
      by_cases hct : (c1, c2) = ((u : Nat), v)
      · injection hct with hA hB
        have hA2 : u = c1 := hA.symm
        have hB2 : v = c2 := hB.symm
        subst hA2
        subst hB2
        rw [if_pos ⟨rfl, rfl, hrev⟩, if_pos (hiff.mpr rfl)]
      · have h1 : ¬(v = c2 ∧ u = c1 ∧ cxErrOf props c2 c1 = none) := by
          rintro ⟨ha, hb, _⟩
          subst ha
          subst hb
          exact hct rfl
        have h2 : ¬(v = c1 ∧ u = c2) := by
          rintro ⟨ha, hb⟩
          subst ha
          subst hb
          exact hct_ne rfl
        rw [if_neg h1, if_neg h2, if_neg (fun h => hct (hiff.mp h))]

/-! ## C9 (amended): reverse-direction synthesis -/

/-- C9 (corrected): for a connection `(u,v)` with native calibration
whose reverse `(v,u)` has none, the edge `(v,u)` is always present in
the built graph; its weight equals the weight of `(u,v)` plus the
direction penalty provided `(v,u)` is not itself an entry of the
coupling map — a later `(v,u)` entry overwrites the synthesized weight
with a default-error weight (see the counterexample). -/
theorem reverse_synthesis_weight (be : BackendConf) (props : Props) (k : Nat)
    (hyper : WeightHyperParams) (u v : Nat) (e : ℚ)
    (hmem : (u, v) ∈ be.coupling_map)
    (he : cxErrOf props u v = some e) (hrev : cxErrOf props v u = none) :
    hasEdgeB (build_weighted_graph be props k hyper).1 v u = true ∧
    ((v, u) ∉ be.coupling_map →
      ∃ w, findW (build_weighted_graph be props k hyper).1 u v = some w ∧
        findW (build_weighted_graph be props k hyper).1 v u =
          some (w + (build_weighted_graph be props k hyper).2.direction_penalty)) := by
  have hne : cxErrOf props u v ≠ none := by rw [he]; simp
  constructor
  · exact buildFold_rev_present props (collect_backend_stats props)
      (hyper.auto_scale (collect_backend_stats props).toMap k) u v hrev
      be.coupling_map ⟨be.n_qubits, []⟩ hmem
  · intro hnotmem
    refine ⟨fwdWeight props (collect_backend_stats props)
      (hyper.auto_scale (collect_backend_stats props).toMap k) u v, ?_, ?_⟩
    · show findW (be.coupling_map.foldl _ _) u v = _
      rw [buildFold_findW_fwd props _ _ u v hne be.coupling_map ⟨be.n_qubits, []⟩,
        if_pos hmem]
    · show findW (be.coupling_map.foldl _ _) v u = _
      rw [buildFold_findW_rev props _ _ u v hrev be.coupling_map ⟨be.n_qubits, []⟩ hnotmem,
        if_pos hmem]
      rfl

/-- Witness for C9's amended theorem: one-directional coupling map, the
synthesized reverse edge carries weight plus penalty. -/
theorem reverse_synthesis_weight_witness :
    hasEdgeB (build_weighted_graph exampleOneDirBackend exampleProps 1 {}).1 1 0 = true ∧
    (((1 : Nat), (0 : Nat)) ∉ exampleOneDirBackend.coupling_map →
      ∃ w, findW (build_weighted_graph exampleOneDirBackend exampleProps 1 {}).1 0 1 = some w ∧
        findW (build_weighted_graph exampleOneDirBackend exampleProps 1 {}).1 1 0 =
          some (w + (build_weighted_graph exampleOneDirBackend exampleProps 1 {}).2.direction_penalty)) :=
  reverse_synthesis_weight exampleOneDirBackend exampleProps 1 {} 0 1 (1/100)
    (List.mem_cons_self _ _) rfl rfl

/-! ## Nonnegativity chain for the weight invariant -/

/-- The last element, when there is one, is an element. -/
theorem mem_of_getLast?_eq_some {α : Type} {l : List α} {a : α}
    (h : l.getLast? = some a) : a ∈ l := by
  have hx : a ∈ l.getLast? := Option.mem_def.mpr h
  obtain ⟨hne, heq⟩ := List.mem_getLast?_eq_getLast hx
  rw [heq]
  exact List.getLast_mem hne

/-- A looked-up parameter value is one of the stored values. -/
theorem lookupParam_nonneg {name : String} {ps : List (String × ℚ)} {x : ℚ}
    (hps : ∀ pr ∈ ps, 0 ≤ pr.2) (h : lookupParam name ps = some x) : 0 ≤ x := by
  unfold lookupParam at h
  cases hf : ps.find? (fun pr => pr.1 = name) with
  | none => rw [hf] at h; exact absurd h (by simp)
  | some pr =>
    rw [hf] at h
    injection h with h
    rw [← h]
    exact hps pr (List.mem_of_find?_eq_some hf)

/-- A resolved gate error of a nonnegative gate record is nonnegative. -/
theorem gateErr_nonneg {gt : GateRec} {x : ℚ} (h1 : OptNonneg gt.error)
    (h2 : ∀ pr ∈ gt.params, 0 ≤ pr.2) (h : gateErr gt = some x) : 0 ≤ x := by
  unfold gateErr at h
  cases he : gt.error with
  | some e =>
    rw [he] at h
    injection h with h
    rw [← h]
    rw [he] at h1
    exact h1
  | none =>
    rw [he] at h
    exact lookupParam_nonneg h2 h

/-- A resolved gate duration of a nonnegative gate record is
nonnegative. -/
theorem gateLen_nonneg {gt : GateRec} {x : ℚ} (h1 : OptNonneg gt.gate_length)
    (h2 : ∀ pr ∈ gt.params, 0 ≤ pr.2) (h : gateLen gt = some x) : 0 ≤ x := by
  unfold gateLen at h
  cases he : gt.gate_length with
  | some e =>
    rw [he] at h
    injection h with h
    rw [← h]
    rw [he] at h1
    exact h1
  | none =>
    rw [he] at h
    exact lookupParam_nonneg h2 h

/-- Native two-qubit errors are nonnegative under nonnegative
properties. -/
theorem cxErrOf_nonneg {props : Props} (hp : NonnegProps props) {c t : Nat} {x : ℚ}
    (h : cxErrOf props c t = some x) : 0 ≤ x := by
  unfold cxErrOf at h
  have hmem := mem_of_getLast?_eq_some h
  obtain ⟨gt, hgt, hres⟩ := List.mem_filterMap.mp hmem
  split_ifs at hres
  obtain ⟨hg1, _, hg3⟩ := hp.1 gt hgt
  exact gateErr_nonneg hg1 hg3 hres

/-- Native two-qubit durations are nonnegative under nonnegative
properties. -/
theorem cxDurOf_nonneg {props : Props} (hp : NonnegProps props) {c t : Nat} {x : ℚ}
    (h : cxDurOf props c t = some x) : 0 ≤ x := by
  unfold cxDurOf at h
  have hmem := mem_of_getLast?_eq_some h
  obtain ⟨gt, hgt, hres⟩ := List.mem_filterMap.mp hmem
  split_ifs at hres
  obtain ⟨_, hg2, hg3⟩ := hp.1 gt hgt
  exact gateLen_nonneg hg2 hg3 hres

/-- Per-node single-qubit errors are nonnegative under nonnegative
properties. -/
theorem oneqErrOf_nonneg {props : Props} (hp : NonnegProps props) {q : Nat} {x : ℚ}
    (h : oneqErrOf props q = some x) : 0 ≤ x := by
  unfold oneqErrOf at h
  have hmem := mem_of_getLast?_eq_some h
  obtain ⟨pr, hpr, hres⟩ := List.mem_filterMap.mp hmem
  split_ifs at hres
  injection hres with hres
  rw [← hres]
  cases hq : props.qubits.get? q with
  | none => rw [hq] at hpr; exact absurd hpr (by simp)
  | some ql =>
    rw [hq] at hpr
    exact hp.2 ql (List.get?_mem hq) pr hpr

/-- Per-node readout errors are nonnegative under nonnegative
properties. -/
theorem roErrOf_nonneg {props : Props} (hp : NonnegProps props) {q : Nat} {x : ℚ}
    (h : roErrOf props q = some x) : 0 ≤ x := by
  unfold roErrOf at h
  have hmem := mem_of_getLast?_eq_some h
  obtain ⟨pr, hpr, hres⟩ := List.mem_filterMap.mp hmem
  split_ifs at hres
  injection hres with hres
  rw [← hres]
  cases hq : props.qubits.get? q with
  | none => rw [hq] at hpr; exact absurd hpr (by simp)
  | some ql =>
    rw [hq] at hpr
    exact hp.2 ql (List.get?_mem hq) pr hpr

/-- Every collected two-qubit error value is nonnegative. -/
theorem twoqErrs_nonneg {props : Props} (hp : NonnegProps props) :
    ∀ x ∈ twoqErrs props, 0 ≤ x := by
  intro x hx
  obtain ⟨gt, hgt, hres⟩ := List.mem_filterMap.mp hx
  split_ifs at hres
  obtain ⟨hg1, _, hg3⟩ := hp.1 gt hgt
  exact gateErr_nonneg hg1 hg3 hres

/-- Every collected two-qubit duration value is nonnegative. -/
theorem twoqDurs_nonneg {props : Props} (hp : NonnegProps props) :
    ∀ x ∈ twoqDurs props, 0 ≤ x := by
  intro x hx
  obtain ⟨gt, hgt, hres⟩ := List.mem_filterMap.mp hx
  split_ifs at hres
  obtain ⟨_, hg2, hg3⟩ := hp.1 gt hgt
  exact gateLen_nonneg hg2 hg3 hres

/-- Every collected per-qubit parameter value picked by a name filter is
nonnegative. -/
theorem qubitVals_nonneg {props : Props} (hp : NonnegProps props)
    (f : String × ℚ → Option ℚ) (hf : ∀ pr x, f pr = some x → x = pr.2) :
    ∀ x ∈ props.qubits.flatMap (fun ql => ql.filterMap f), 0 ≤ x := by
  intro x hx
  obtain ⟨ql, hql, hmem⟩ := List.mem_flatMap.mp hx
  obtain ⟨pr, hpr, hres⟩ := List.mem_filterMap.mp hmem
  rw [hf pr x hres]
  exact hp.2 ql hql pr hpr

/-- Means of nonnegative lists with nonnegative defaults are
nonnegative. -/
theorem meanD_nonneg {l : List ℚ} {d : ℚ} (hl : ∀ x ∈ l, 0 ≤ x) (hd : 0 ≤ d) :
    0 ≤ meanD l d := by
  unfold meanD
  split_ifs
  · exact hd
  · exact div_nonneg (List.sum_nonneg hl) (by positivity)

/-- The running maximum dominates its start. -/
theorem le_foldl_max (l : List ℚ) : ∀ x : ℚ, x ≤ l.foldl max x := by
  induction l with
  | nil => intro x; exact le_refl x
  | cons y ys ih =>
    intro x
    rw [List.foldl_cons]
    exact le_trans (le_max_left x y) (ih (max x y))

/-- Maxima of nonnegative lists with nonnegative defaults are
nonnegative. -/
theorem maxD_nonneg {l : List ℚ} {d : ℚ} (hl : ∀ x ∈ l, 0 ≤ x) (hd : 0 ≤ d) :
    0 ≤ maxD l d := by
  unfold maxD
  cases l with
  | nil => exact hd
  | cons x xs =>
    exact le_trans (hl x (List.mem_cons_self _ _)) (le_foldl_max xs x)

/-- All six collected statistics are nonnegative under nonnegative
properties. -/
theorem collect_backend_stats_nonneg {props : Props} (hp : NonnegProps props) :
    0 ≤ (collect_backend_stats props).mean_cx_err ∧
    0 ≤ (collect_backend_stats props).max_cx_err ∧
    0 ≤ (collect_backend_stats props).mean_1q_err ∧
    0 ≤ (collect_backend_stats props).mean_ro_err ∧
    0 ≤ (collect_backend_stats props).mean_cx_dur ∧
    0 ≤ (collect_backend_stats props).mean_T1 := by
  refine ⟨meanD_nonneg (twoqErrs_nonneg hp) (by norm_num),
    maxD_nonneg (twoqErrs_nonneg hp) (by norm_num),
    meanD_nonneg ?_ (by norm_num), meanD_nonneg ?_ (by norm_num),
    meanD_nonneg (twoqDurs_nonneg hp) (by norm_num), meanD_nonneg ?_ (by norm_num)⟩
  · apply qubitVals_nonneg hp
    intro pr x hx
    split_ifs at hx
    injection hx with hx
    exact hx.symm
  · apply qubitVals_nonneg hp
    intro pr x hx
    split_ifs at hx
    injection hx with hx
    exact hx.symm
  · apply qubitVals_nonneg hp
    intro pr x hx
    split_ifs at hx
    injection hx with hx
    exact hx.symm

/-- Every effective (auto-scaled) coefficient is nonnegative under
nonnegative supplied coefficients and nonnegative statistics. -/
theorem auto_scaled_nonneg {h : WeightHyperParams} (hh : NonnegHyper h)
    {s : BackendStats} (hs : 0 ≤ s.mean_cx_err ∧ 0 ≤ s.mean_1q_err) (k : Nat) :
    0 ≤ ((h.auto_scale s.toMap k).alpha.getD 0) ∧
    0 ≤ ((h.auto_scale s.toMap k).beta.getD 0) ∧
    0 ≤ ((h.auto_scale s.toMap k).gamma.getD 0) ∧
    0 ≤ ((h.auto_scale s.toMap k).delta.getD 0) := by
  obtain ⟨f1, f2, f3, f4, _, _⟩ := auto_scale_fields h s.toMap k
  simp only [BackendStats.toMap, Option.getD_some, Option.getD_none] at f1 f2 f3 f4 ⊢
  have halpha : 0 ≤ h.alpha.getD (s.mean_cx_err / max s.mean_1q_err (1/1000000)) := by
    cases ha : h.alpha with
    | none =>
      simp only [Option.getD_none]
      apply div_nonneg hs.1
      exact le_trans (by norm_num) (le_max_right _ _)
    | some a =>
      have := hh.1
      rw [ha] at this
      simpa using this
  rw [f1, f2, f3, f4]
  simp only [Option.getD_some]
  refine ⟨halpha, ?_, ?_, ?_⟩
  · cases hb : h.beta with
    | none =>
      simp only [Option.getD_none]
      exact div_nonneg halpha (by norm_num)
    | some b =>
      have hnn := hh.2.1
      rw [hb] at hnn
      simpa using hnn
  · cases hc : h.gamma with
    | none =>
      simp only [Option.getD_none]
      apply div_nonneg hs.1
      exact le_trans zero_le_one (le_max_right _ _)
    | some c =>
      have hnn := hh.2.2.1
      rw [hc] at hnn
      simpa using hnn
  · cases hd : h.delta with
    | none =>
      simp only [Option.getD_none]
      norm_num
    | some d =>
      have hnn := hh.2.2.2.1
      rw [hd] at hnn
      simpa using hnn

/-- A present optional value bounded below by zero, defaulting to
zero. -/
theorem optD_nonneg {o : Option ℚ} (h : ∀ x, o = some x → 0 ≤ x) : 0 ≤ o.getD 0 := by
  cases ho : o with
  | none => simp
  | some x => simp only [Option.getD_some]; exact h x ho

/-- The composite forward weight is nonnegative and dominates the native
error component. -/
theorem fwdWeight_spec {props : Props} (hp : NonnegProps props) {stats : BackendStats}
    (hs1 : 0 ≤ stats.max_cx_err) (hs2 : 0 ≤ stats.mean_cx_dur)
    {h : WeightHyperParams}
    (hc1 : 0 ≤ h.alpha.getD 0) (hc2 : 0 ≤ h.beta.getD 0)
    (hc3 : 0 ≤ h.gamma.getD 0) (hc4 : 0 ≤ h.delta.getD 0) (c t : Nat) :
    0 ≤ fwdWeight props stats h c t ∧
    ∀ e, cxErrOf props c t = some e → e ≤ fwdWeight props stats h c t := by
  have hbase : 0 ≤ (cxErrOf props c t).getD (3/2 * stats.max_cx_err) := by
    cases hce : cxErrOf props c t with
    | none =>
      simp only [Option.getD_none]
      exact mul_nonneg (by norm_num) hs1
    | some e =>
      simp only [Option.getD_some]
      exact cxErrOf_nonneg hp hce
  have hlen : 0 ≤ (cxDurOf props c t).getD stats.mean_cx_dur := by
    cases hcd : cxDurOf props c t with
    | none => simp only [Option.getD_none]; exact hs2
    | some d => simp only [Option.getD_some]; exact cxDurOf_nonneg hp hcd
  have hsq : 0 ≤ (oneqErrOf props c).getD 0 + (oneqErrOf props t).getD 0 :=
    add_nonneg (optD_nonneg fun x hx => oneqErrOf_nonneg hp hx)
      (optD_nonneg fun x hx => oneqErrOf_nonneg hp hx)
  have hro : 0 ≤ (roErrOf props c).getD 0 + (roErrOf props t).getD 0 :=
    add_nonneg (optD_nonneg fun x hx => roErrOf_nonneg hp hx)
      (optD_nonneg fun x hx => roErrOf_nonneg hp hx)
  have hdecoh : 0 ≤ h.delta.getD 0 * ((cxDurOf props c t).getD stats.mean_cx_dur) /
      max stats.mean_T1 (1/1000000) := by
    apply div_nonneg (mul_nonneg hc4 hlen)
    exact le_trans (by norm_num) (le_max_right _ _)
  have hA : 0 ≤ h.alpha.getD 0 * ((oneqErrOf props c).getD 0 + (oneqErrOf props t).getD 0) :=
    mul_nonneg hc1 hsq
  have hB : 0 ≤ h.beta.getD 0 * ((roErrOf props c).getD 0 + (roErrOf props t).getD 0) :=
    mul_nonneg hc2 hro
  constructor
  · unfold fwdWeight
    dsimp only
    linarith
  · intro e he
    unfold fwdWeight
    dsimp only
    rw [he]
    simp only [Option.getD_some]
    linarith

/-- Membership after an `add_edge`: an old entry of another pair or the
new entry. -/
theorem mem_addEdge {g : WGraph} {u v a b : Nat} {w w' : ℚ}
    (h : (a, b, w') ∈ (addEdge g u v w).edges) :
    (a, b, w') ∈ g.edges ∨ (a = u ∧ b = v ∧ w' = w) := by
  unfold addEdge at h
  dsimp only at h
  rcases List.mem_append.mp h with h1 | h1
  · exact Or.inl (List.mem_of_mem_filter h1)
  · simp only [List.mem_singleton, Prod.mk.injEq] at h1
    exact Or.inr ⟨h1.1, h1.2.1, h1.2.2⟩

/-- The builder fold preserves the weight invariant: every stored weight
is nonnegative and dominates its pair's native error. -/
theorem buildFold_weight_inv (props : Props) (stats : BackendStats)
    (hq : WeightHyperParams)
    (hw : ∀ c t, 0 ≤ fwdWeight props stats hq c t ∧
      ∀ e, cxErrOf props c t = some e → e ≤ fwdWeight props stats hq c t)
    (hdp : 0 ≤ hq.direction_penalty) :
    ∀ (L : List (Nat × Nat)) (g : WGraph),
      (∀ a b w, (a, b, w) ∈ g.edges →
        0 ≤ w ∧ ∀ e, cxErrOf props a b = some e → e ≤ w) →
      ∀ a b w, (a, b, w) ∈ (L.foldl (buildStep props stats hq) g).edges →
        0 ≤ w ∧ ∀ e, cxErrOf props a b = some e → e ≤ w := by
  intro L
  induction L with
  | nil => intro g hg; exact hg
  | cons ct cts ih =>
    intro g hg
    rw [List.foldl_cons]
    apply ih
    intro a b w hmem
    simp only [buildStep] at hmem
    split_ifs at hmem with hsyn
    · rcases mem_addEdge hmem with hold | ⟨ha, hb, hw'⟩
      · exact hg a b w hold
      · subst ha
        subst hb
        subst hw'
        exact hw ct.1 ct.2
    · rcases mem_addEdge hmem with hmem2 | ⟨ha, hb, hw'⟩
      · rcases mem_addEdge hmem2 with hold | ⟨ha, hb, hw'⟩
        · exact hg a b w hold
        · subst ha
          subst hb
          subst hw'
          exact hw ct.1 ct.2
      · subst ha
        subst hb
        subst hw'
        constructor
        · exact add_nonneg (hw ct.1 ct.2).1 hdp
        · intro e he
          rw [Option.not_isSome_iff_eq_none.mp hsyn] at he
          exact absurd he (by simp)

/-! ## C8: weight invariant of the built graph -/

/-- C8 (confirmed): under nonnegative calibration values (and
nonnegative explicitly supplied coefficients — auto-derived ones are
nonnegative automatically), every edge weight of the built graph is
nonnegative and at least the native gate error of its ordered pair when
one exists.  Finiteness is intrinsic to the exact-rational model of the
float arithmetic: the formula is a finite sum of finite terms. -/
theorem build_weighted_graph_weight_invariant (be : BackendConf) (props : Props)
    (k : Nat) (hyper : WeightHyperParams)
    (h1 : NonnegProps props) (h2 : NonnegHyper hyper) :
    ∀ u v w, (u, v, w) ∈ (build_weighted_graph be props k hyper).1.edges →
      0 ≤ w ∧ ∀ e, cxErrOf props u v = some e → e ≤ w := by
  intro u v w hmem
  have hs := collect_backend_stats_nonneg h1
  have hc := auto_scaled_nonneg h2 ⟨hs.1, hs.2.2.1⟩ k
  have hdp : 0 ≤ (hyper.auto_scale (collect_backend_stats props).toMap k).direction_penalty := by
    rw [(auto_scale_fields hyper (collect_backend_stats props).toMap k).2.2.2.2.1]
    exact h2.2.2.2.2
  refine buildFold_weight_inv props (collect_backend_stats props)
    (hyper.auto_scale (collect_backend_stats props).toMap k)
    (fun c t => fwdWeight_spec h1 hs.2.1 hs.2.2.2.2.1 hc.1 hc.2.1 hc.2.2.1 hc.2.2.2 c t)
    hdp be.coupling_map ⟨be.n_qubits, []⟩ ?_ u v w hmem
  intro a b w' hm
  exact absurd hm (List.not_mem_nil _)

/-- Witness for C8 on the default-calibration single-link backend: the
built forward edge `(0, 1)` carries weight `1/375 ≥ 0`, and every
hypothesis is discharged concretely. -/
theorem build_weighted_graph_weight_invariant_witness :
    NonnegProps emptyProps ∧ NonnegHyper {} ∧
    (0 ≤ (1/375 : ℚ) ∧ ∀ e, cxErrOf emptyProps 0 1 = some e → e ≤ (1/375 : ℚ)) := by
  have hP : NonnegProps emptyProps := by
    constructor
    · intro gt hgt
      exact absurd hgt (List.not_mem_nil _)
    · intro ql hql
      exact absurd hql (List.not_mem_nil _)
  have hH : NonnegHyper {} := ⟨trivial, trivial, trivial, trivial, by norm_num⟩
  have hstats8 : collect_backend_stats emptyProps =
      { mean_cx_err := 1/1000, max_cx_err := 1/1000, mean_1q_err := 1/10000,
        mean_ro_err := 1/50, mean_cx_dur := 1/1000000, mean_T1 := 3/50000 } := by
    show BackendStats.mk (meanD [] (1/1000)) (maxD [] (1/1000)) (meanD [] (1/10000))
      (meanD [] (1/50)) (meanD [] (1/1000000)) (meanD [] (3/50000)) = _
    norm_num [meanD, maxD]
  have hh8 : WeightHyperParams.auto_scale {} (collect_backend_stats emptyProps).toMap 1 =
      { alpha := some 10, beta := some 5, gamma := some (1/1000), delta := some (1/100) } := by
    rw [hstats8]
    norm_num [WeightHyperParams.auto_scale, BackendStats.toMap]
  have hf01 : fwdWeight emptyProps (collect_backend_stats emptyProps)
      (WeightHyperParams.auto_scale {} (collect_backend_stats emptyProps).toMap 1) 0 1 =
      1/375 := by
    rw [fwdWeight, hh8, hstats8]
    show (3/2 : ℚ) * (1/1000) + 10 * (0 + 0) + 5 * (0 + 0) + 1/1000 +
      (1/100) * (1/1000000) / max (3/50000 : ℚ) (1/1000000) = 1/375
    rw [max_eq_left (by norm_num)]
    norm_num
  have hG8 : (build_weighted_graph exampleOneDirBackend emptyProps 1 {}).1 =
      ⟨2, [(0, 1, 1/375), (1, 0, 377/750)]⟩ := by
    show buildStep emptyProps (collect_backend_stats emptyProps)
      (WeightHyperParams.auto_scale {} (collect_backend_stats emptyProps).toMap 1)
      ⟨2, []⟩ (0, 1) = _
    rw [buildStep]
    simp only [show cxErrOf emptyProps 1 0 = none from rfl, Option.isSome,
      Bool.false_eq_true, if_false, hf01]
    simp only [addEdge, WGraph.mk.injEq]
    rw [hh8]
    norm_num
  have hmem : ((0 : Nat), (1 : Nat), (1/375 : ℚ)) ∈
      (build_weighted_graph exampleOneDirBackend emptyProps 1 {}).1.edges := by
    rw [hG8]
    exact List.mem_cons_self _ _
  exact ⟨hP, hH,
    build_weighted_graph_weight_invariant exampleOneDirBackend emptyProps 1 {} hP hH
      0 1 (1/375) hmem⟩
